import Mathlib

/-!
# Verification of the spreadsheet-to-record normalization pipeline

Shallow embedding of `src/utils/csv-parser.ts` (tabular parser + record
merger) of the csv-parser-backend repository, together with proofs of the
behavioural claims made by its specification.

Modelling conventions:
* JavaScript numbers are modelled by `JsNum`: exact rationals plus the
  special values `NaN`, `Infinity` and `-Infinity` (an exact-arithmetic
  stand-in for IEEE doubles; all claims only involve values where IEEE
  arithmetic is exact).
* A cell value (`Value`) is either a string or a number; `null`/`undefined`
  slots are `Option Value` (`none`).
* A JavaScript object (`PropertyUnit`, `Record<string, _>`) is modelled as
  an insertion-ordered association list with unique keys; `WfRecord`
  states the key-uniqueness that every real JS object has by construction.
* The `xlsx` workbook reader is an external library, so the spreadsheet
  path is embedded from the point where the sheet has been converted to a
  row matrix (`List (List (Option Value))`), mirroring the code from the
  `rawJson` value onwards.
-/

set_option autoImplicit false

namespace CsvCore

/-- A JavaScript number: an exact rational, or one of the IEEE special
values `Infinity`, `-Infinity`, `NaN`. -/
inductive JsNum where
  | fin (q : ℚ)
  | posInf
  | negInf
  | nan
deriving DecidableEq, Repr

/-- JavaScript `+` on numbers (exact-rational model of IEEE addition):
`NaN` is absorbing, `Infinity + -Infinity = NaN`, an infinity absorbs any
finite operand. -/
def JsNum.add : JsNum → JsNum → JsNum
  | .nan, _ => .nan
  | _, .nan => .nan
  | .posInf, .negInf => .nan
  | .negInf, .posInf => .nan
  | .posInf, _ => .posInf
  | _, .posInf => .posInf
  | .negInf, _ => .negInf
  | _, .negInf => .negInf
  | .fin a, .fin b => .fin (a + b)

/-- A cell / record field value: JS `string` or `number`. -/
inductive Value where
  | vStr (s : String)
  | vNum (n : JsNum)
deriving DecidableEq, Repr

/-- The characters trimmed by JS `String.prototype.trim` and matched by the
regexp class `\s` (WhiteSpace ∪ LineTerminator). -/
def isJsSpace (c : Char) : Bool :=
  c = ' ' ∨ c = '\t' ∨ c = '\n' ∨ c = '\r' ∨
  c = Char.ofNat 0x0B ∨ c = Char.ofNat 0x0C ∨
  c = Char.ofNat 0xA0 ∨ c = Char.ofNat 0x1680 ∨
  (Char.ofNat 0x2000 ≤ c ∧ c ≤ Char.ofNat 0x200A) ∨
  c = Char.ofNat 0x2028 ∨ c = Char.ofNat 0x2029 ∨
  c = Char.ofNat 0x202F ∨ c = Char.ofNat 0x205F ∨
  c = Char.ofNat 0x3000 ∨ c = Char.ofNat 0xFEFF

/-- JS `String.prototype.trim`. -/
def jsTrim (s : String) : String :=
  String.mk (((s.data.dropWhile isJsSpace).reverse.dropWhile isJsSpace).reverse)

/-- Split a character list at every occurrence of the separator character
(JS `String.prototype.split` with a single-character separator). -/
def splitCharAux (sep : Char) : List Char → List Char → List String
  | [], acc => [String.mk acc.reverse]
  | c :: rest, acc =>
    if c = sep then String.mk acc.reverse :: splitCharAux sep rest []
    else splitCharAux sep rest (c :: acc)

/-- JS `s.split(sep)` for a one-character separator. -/
def jsSplit (s : String) (sep : Char) : List String :=
  splitCharAux sep s.data []

/-- Split at every `\r\n` or `\n` (JS `s.split(/\r?\n/)`). Structural
recursion on a fuel bound (every step consumes at least one character, so
`cs.length` fuel is always enough and the zero-fuel arm is unreachable). -/
def splitLinesAux : Nat → List Char → List Char → List String
  | _, [], acc => [String.mk acc.reverse]
  | 0, cs, acc => [String.mk (acc.reverse ++ cs)]
  | fuel + 1, '\r' :: '\n' :: rest, acc =>
    String.mk acc.reverse :: splitLinesAux fuel rest []
  | fuel + 1, '\n' :: rest, acc =>
    String.mk acc.reverse :: splitLinesAux fuel rest []
  | fuel + 1, c :: rest, acc => splitLinesAux fuel rest (c :: acc)

/-- JS `s.split(/\r?\n/)`. -/
def splitLines (s : String) : List String :=
  splitLinesAux s.data.length s.data []

/-- Is the character one of the quote characters of the header/value
cleanup regexp `["']`? -/
def isQuote (c : Char) : Bool :=
  c = '"' ∨ c = Char.ofNat 39

/-- JS `s.replace(/^["'](.+)["']$/, "$1")`: if the string is a quote
character, at least one non-line-terminator character, and a quote
character, drop the two quotes; otherwise return it unchanged.
(`.` in a JS regexp does not match line terminators.) -/
def stripQuotes (s : String) : String :=
  match s.data with
  | [] => s
  | c :: rest =>
    match rest.getLast? with
    | none => s
    | some lastC =>
      let middle := rest.dropLast
      if isQuote c ∧ isQuote lastC ∧ middle ≠ [] ∧
          middle.all (fun ch => ch ≠ '\n' ∧ ch ≠ '\r' ∧
            ch ≠ Char.ofNat 0x2028 ∧ ch ≠ Char.ofNat 0x2029) then
        String.mk middle
      else s

/-- Value of a digit character in the given base (`10`, `16`, `8` or `2`);
`none` when the character is not a digit of that base. -/
def digitValue (base : Nat) (c : Char) : Option Nat :=
  if '0' ≤ c ∧ c ≤ '9' ∧ c.toNat - '0'.toNat < base then some (c.toNat - '0'.toNat)
  else if 'a' ≤ c ∧ c ≤ 'f' ∧ base = 16 then some (c.toNat - 'a'.toNat + 10)
  else if 'A' ≤ c ∧ c ≤ 'F' ∧ base = 16 then some (c.toNat - 'A'.toNat + 10)
  else none

/-- Greedily consume digits of the given base, returning the accumulated
value, the number of digits consumed, and the remaining characters. -/
def takeDigits (base : Nat) : List Char → Nat → Nat → (Nat × Nat × List Char)
  | [], v, n => (v, n, [])
  | c :: rest, v, n =>
    match digitValue base c with
    | some d => takeDigits base rest (v * base + d) (n + 1)
    | none => (v, n, c :: rest)

/-- Parse an optional `ExponentPart` (`e`/`E`, optional sign, at least one
digit). Returns `none` when an exponent marker is present but malformed,
`some (exponent, rest)` otherwise (`0` when no exponent part is present). -/
def parseExpPart (cs : List Char) : Option (Int × List Char) :=
  match cs with
  | c :: rest =>
    if c = 'e' ∨ c = 'E' then
      let (neg, rest') :=
        match rest with
        | '+' :: r => (false, r)
        | '-' :: r => (true, r)
        | r => (false, r)
      let (v, n, rest'') := takeDigits 10 rest' 0 0
      if n = 0 then none
      else some (if neg then -(v : Int) else (v : Int), rest'')
    else some (0, cs)
  | [] => some (0, [])

/-- Scale a rational by a (possibly negative) power of ten. -/
def applyExp (m : ℚ) (e : Int) : ℚ :=
  if 0 ≤ e then m * (10 : ℚ) ^ e.toNat else m / (10 : ℚ) ^ (-e).toNat

/-- Parse an unsigned `StrUnsignedDecimalLiteral` without the `Infinity`
production: digits, optional `.` with optional fraction digits (at least
one digit overall), optional exponent part. Returns the value and the
remaining characters, `none` when no such literal starts the input. -/
def parseUnsignedDec (cs : List Char) : Option (ℚ × List Char) :=
  let t1 := takeDigits 10 cs 0 0
  let t2 :=
    match t1.2.2 with
    | '.' :: r => takeDigits 10 r 0 0
    | _ => (0, 0, t1.2.2)
  if t1.2.1 + t2.2.1 = 0 then none
  else
    match parseExpPart t2.2.2 with
    | none => none
    | some (e, rest) =>
      some (applyExp ((t1.1 : ℚ) + (t2.1 : ℚ) / (10 : ℚ) ^ t2.2.1) e, rest)

/-- Parse an unsigned non-decimal integer literal body (after `0x`, `0o`
or `0b`): at least one digit and nothing after it. -/
def parseNonDec (base : Nat) (rest : List Char) : JsNum :=
  let t := takeDigits base rest 0 0
  if t.2.1 ≥ 1 ∧ t.2.2 = [] then .fin (t.1 : ℚ) else .nan

/-- The signed decimal path of `Number(string)`: optional sign, then
`Infinity` or an unsigned decimal literal consuming the whole input. -/
def parseSignedDec (cs : List Char) : JsNum :=
  let (neg, rest) :=
    match cs with
    | '+' :: r => (false, r)
    | '-' :: r => (true, r)
    | r => (false, r)
  if rest = "Infinity".data then (if neg then .negInf else .posInf)
  else
    match parseUnsignedDec rest with
    | some (q, []) => .fin (if neg then -q else q)
    | _ => .nan

/-- JS `Number(string)` (ECMA `StringToNumber`): trim, empty means `0`,
unsigned `0x`/`0o`/`0b` integer literals, otherwise a signed decimal
literal or `Infinity`; anything else is `NaN`. Exact-rational model of the
IEEE result (exact on every value the claims exercise). -/
def jsStringToNumber (s : String) : JsNum :=
  match (jsTrim s).data with
  | [] => .fin 0
  | '0' :: b :: rest =>
    if b = 'x' ∨ b = 'X' then parseNonDec 16 rest
    else if b = 'o' ∨ b = 'O' then parseNonDec 8 rest
    else if b = 'b' ∨ b = 'B' then parseNonDec 2 rest
    else parseSignedDec ('0' :: b :: rest)
  | cs => parseSignedDec cs

/-- Decimal rendering of a rational whose denominator divides a power of
ten (the only case reachable from parsed numeric strings); other
denominators fall back to a fraction rendering. Model of JS
number-to-string conversion, exact where IEEE printing is exact. -/
def ratDecimalString (q : ℚ) : String :=
  if q.den = 1 then toString q.num
  else
    match (List.range 64).find? (fun k => 10 ^ k % q.den = 0) with
    | some k =>
      let n : Nat := q.num.natAbs * (10 ^ k / q.den)
      let intPart := n / 10 ^ k
      let fracPart := n % 10 ^ k
      let fracDigits := toString fracPart
      let padded := String.mk (List.replicate (k - fracDigits.length) '0') ++ fracDigits
      let stripped := String.mk ((padded.data.reverse.dropWhile (fun c => c = '0')).reverse)
      (if q.num < 0 then "-" else "") ++ toString intPart ++
        (if stripped = "" then "" else "." ++ stripped)
    | none => toString q.num ++ "/" ++ toString q.den

/-- JS `String(n)` for a number. -/
def JsNum.toJsString : JsNum → String
  | .nan => "NaN"
  | .posInf => "Infinity"
  | .negInf => "-Infinity"
  | .fin q => ratDecimalString q

/-- JS string coercion `String(v)` of a cell value (applied when a value
is used as an object key). -/
def Value.toKey : Value → String
  | .vStr s => s
  | .vNum n => n.toJsString

/-- JS truthiness of a cell value (`!v = false`): the falsy values here
are the empty string, `0` and `NaN`. -/
def Value.truthy : Value → Bool
  | .vStr s => s ≠ ""
  | .vNum (.fin q) => q ≠ 0
  | .vNum .nan => false
  | .vNum _ => true

/-- JS `Number(v)` on a cell value: strings go through `StringToNumber`,
numbers are returned unchanged. -/
def jsNumberOfValue : Value → JsNum
  | .vStr s => jsStringToNumber s
  | .vNum n => n

/-- A parsed record (JS object): insertion-ordered association list. -/
abbrev PropertyUnit := List (String × Value)

/-- JS property read `m[k]`: first entry with the given key
(`undefined` = `none`). -/
def jsGet {β : Type} : List (String × β) → String → Option β
  | [], _ => none
  | (k', v) :: rest, k => if k' = k then some v else jsGet rest k

/-- JS property assignment `m[k] = v`: overwrite in place when the key
exists (keeping its position), otherwise append. -/
def jsSet {β : Type} (m : List (String × β)) (k : String) (v : β) : List (String × β) :=
  if m.any (fun p => p.1 = k) then m.map (fun p => if p.1 = k then (p.1, v) else p)
  else m ++ [(k, v)]

/-- Key-uniqueness invariant of the association-list model: a real JS
object never holds the same key twice. -/
def WfRecord {β : Type} (m : List (String × β)) : Prop :=
  (m.map Prod.fst).Nodup

instance {β : Type} (m : List (String × β)) : Decidable (WfRecord m) := by
  unfold WfRecord; infer_instance

/-! ## The delimited-text path (`parseCSV`, lines 20–138) -/

/-- The delimiter candidates tried by `parseCSV`, in source order. -/
def possibleDelimiters : List Char := [',', ';', '\t', '|']

/-- Delimiter sniffing (`parseCSV` lines 30–42): fold over the candidates,
replacing the best candidate whenever the field count on the first row
strictly exceeds the best count so far, starting from `(',', 0)`. -/
def detectDelimiter (firstRow : String) : Char :=
  (possibleDelimiters.foldl
    (fun best d =>
      let count := (jsSplit firstRow d).length
      if count > best.2 then (d, count) else best)
    (',', 0)).1

/-- Header cleanup (`parseCSV` lines 45–48): trim, then strip one layer of
surrounding quotes. -/
def cleanHeader (h : String) : String := stripQuotes (jsTrim h)

/-- JS `s.startsWith(pre)`. -/
def jsStartsWith (s pre : String) : Bool := pre.data.isPrefixOf s.data

/-- Header validity (`header && !header.startsWith('Column')`). -/
def isValidHeader (h : String) : Bool := h ≠ "" ∧ ¬ jsStartsWith h "Column"

/-- Original column indices of the valid headers (`parseCSV` lines 50–56:
map each header to its index or `-1`, then drop the `-1`s). -/
def validHeaderIndexes (hs : List String) : List Nat :=
  hs.enum.filterMap (fun p => if isValidHeader p.2 then some p.1 else none)

/-- Value extraction for one valid header (`parseCSV` lines 76–81): a
bounds-checked read at the original column index, trimmed, then one layer
of quotes stripped (an out-of-range index yields the empty string). -/
def extractValue (values : List String) (originalIndex : Nat) : String :=
  stripQuotes
    (match values.get? originalIndex with
     | some v => jsTrim v
     | none => "")

/-- Build one record from a split data row (`parseCSV` lines 70–87): each
valid header pulls the value at its original column index and stores it
only when non-empty. -/
def buildRow (headers : List String) (validIdx : List Nat) (values : List String) :
    PropertyUnit :=
  (headers.zip validIdx).foldl
    (fun item p =>
      let value := extractValue values p.2
      if value ≠ "" then jsSet item p.1 (Value.vStr value) else item)
    []

/-- Per-column metadata (`detectedFields` entries). -/
structure FieldInfo where
  type : String
  label : String
  exampleVal : Option Value
deriving DecidableEq, Repr

/-- Field-type detection of the text path (`parseCSV` lines 101–118): scan
the records for the first non-empty value of the column; the field is
numeric when `!isNaN(Number(value))`. -/
def detectFieldCSV : List PropertyUnit → String → FieldInfo
  | [], header => ⟨"string", header, none⟩
  | item :: rest, header =>
    match jsGet item header with
    | none => detectFieldCSV rest header
    | some v =>
      if v = Value.vStr "" then detectFieldCSV rest header
      else if jsNumberOfValue v ≠ JsNum.nan then
        ⟨"number", header, some (Value.vNum (jsNumberOfValue v))⟩
      else ⟨"string", header, some v⟩

/-- Result of a parse: records, emitted field list, per-field metadata. -/
structure ParseResult where
  data : List PropertyUnit
  fields : List String
  detectedFields : List (String × FieldInfo)
deriving DecidableEq, Repr

/-- The data-row loop of `parseCSV` (lines 66–93): skip blank lines, split
by the detected delimiter, build the record, keep it when non-empty. -/
def parseRows (headers : List String) (validIdx : List Nat)
    (bestDelimiter : Char) (restRows : List String) : List PropertyUnit :=
  restRows.foldl
    (fun acc r =>
      let row := jsTrim r
      if row = "" then acc
      else
        let item := buildRow headers validIdx (jsSplit row bestDelimiter)
        if item.isEmpty then acc else acc ++ [item])
    []

/-- The delimited-text parser (`parseCSV`, lines 20–138). -/
def parseCSV (csvString : String) : ParseResult :=
  let rows := splitLines (jsTrim csvString)
  match rows with
  | [] => ⟨[], [], []⟩
  | firstRow :: restRows =>
    let bestDelimiter := detectDelimiter firstRow
    let headers0 := (jsSplit firstRow bestDelimiter).map cleanHeader
    let validIdx := validHeaderIndexes headers0
    let headers := headers0.filter isValidHeader
    let data := parseRows headers validIdx bestDelimiter restRows
    let detected := headers.foldl (fun m h => jsSet m h (detectFieldCSV data h)) []
    ⟨data, headers, detected⟩

/-! ## The record merger (`mergeUnitsByName`, lines 303–402) -/

/-- Numeric value of a digit string (most significant digit first). -/
def digitsToNat (cs : List Char) : Nat :=
  cs.foldl (fun n c => n * 10 + (c.toNat - 48)) 0

/-- Is the string an ECMAScript *array index*: the canonical decimal form
of an integer below `2^32 - 1` (all digits, no leading zero except `"0"`
itself)? Such object keys enumerate before all other keys. -/
def isArrayIndex (s : String) : Bool :=
  s.data ≠ [] ∧ s.data.all (fun c => '0' ≤ c ∧ c ≤ '9') ∧
    (s = "0" ∨ s.data.headD '0' ≠ '0') ∧ digitsToNat s.data < 4294967295

/-- Insert an entry into a list sorted ascending by the numeric value of
the keys. -/
def insertByIndex {β : Type} (g : String × β) :
    List (String × β) → List (String × β)
  | [] => [g]
  | h :: t =>
    if digitsToNat g.1.data ≤ digitsToNat h.1.data then g :: h :: t
    else h :: insertByIndex g t

/-- Sort entries ascending by the numeric value of their keys. -/
def sortByIndex {β : Type} (l : List (String × β)) : List (String × β) :=
  l.foldr insertByIndex []

/-- ECMAScript own-property enumeration order (`Object.keys`): array-index
keys first, in ascending numeric order, then the remaining keys in
insertion order. -/
def jsKeyOrder {β : Type} (m : List (String × β)) : List (String × β) :=
  sortByIndex (m.filter (fun g => isArrayIndex g.1)) ++
    m.filter (fun g => ! isArrayIndex g.1)

/-- The natural-key field used for merging. -/
def unitNameKey : String := "Unit Name"

/-- The fixed allow-list of summable fields (`mergeUnitsByName`
lines 367–380). -/
def fieldsToSum : List String :=
  ["Unit Price", "Finishing price", "Final Total Unit Price",
   "Building Plot Area", "Unit Gross Area", "Land Area", "Garden Area",
   "Sellable Unit Area", "Maintenance Fees per SQM", "Maintenance Value",
   "Amenities (Club)", "Parking Price"]

/-- Merge one field of an incoming record into the accumulator
(`mergeUnitsByName` lines 338–395): skip empty incoming values; adopt the
value when the accumulator slot is absent or empty; sum numerics only on
the allow-list; concatenate differing strings; otherwise first-wins. -/
def mergeField (acc : PropertyUnit) (key : String) (cur : Value) : PropertyUnit :=
  if cur = Value.vStr "" then acc
  else
    match jsGet acc key with
    | none => jsSet acc key cur
    | some accV =>
      if accV = Value.vStr "" then jsSet acc key cur
      else
        match accV, cur with
        | Value.vNum a, Value.vNum c =>
          if key ∈ fieldsToSum then jsSet acc key (Value.vNum (a.add c)) else acc
        | Value.vStr a, Value.vStr c =>
          if a ≠ c then jsSet acc key (Value.vStr (a ++ ", " ++ c)) else acc
        | _, _ => acc

/-- Merge every field of one incoming record into the accumulator
(`mergeUnitsByName` lines 334–396). -/
def mergeTwo (acc u : PropertyUnit) : PropertyUnit :=
  u.foldl (fun a p => mergeField a p.1 p.2) acc

/-- Fold a group into one record, starting from its first unit. -/
def mergeGroup : List PropertyUnit → PropertyUnit
  | [] => []
  | u :: rest => rest.foldl mergeTwo u

/-- Append a unit to its key's group, creating a new group at the end on
first sight of the key (`groupedByName[unitName].push(unit)`). -/
def insertGroup (gs : List (String × List PropertyUnit)) (key : String)
    (u : PropertyUnit) : List (String × List PropertyUnit) :=
  if gs.any (fun g => g.1 = key) then
    gs.map (fun g => if g.1 = key then (g.1, g.2 ++ [u]) else g)
  else gs ++ [(key, [u])]

/-- One record of the grouping loop (`mergeUnitsByName` lines 308–316):
`const unitName = unit['Unit Name']; if (!unitName) return;` then push the
unit under the (string-coerced) key. -/
def groupStep (gs : List (String × List PropertyUnit)) (u : PropertyUnit) :
    List (String × List PropertyUnit) :=
  match jsGet u unitNameKey with
  | none => gs
  | some v => if v.truthy then insertGroup gs v.toKey u else gs

/-- Group records by the string coercion of their `Unit Name` value,
skipping records whose value is missing or falsy (`mergeUnitsByName`
lines 305–316; JS object keys are strings, so the value is coerced). -/
def groupByName (data : List PropertyUnit) : List (String × List PropertyUnit) :=
  data.foldl groupStep []

/-- The record merger (`mergeUnitsByName`, lines 303–402):
`Object.keys(groupedByName).forEach` enumerates the groups in ECMAScript
key order (array-index unit names first, ascending), each folded into one
record. -/
def mergeUnitsByName (data : List PropertyUnit) : List PropertyUnit :=
  (jsKeyOrder (groupByName data)).map (fun g => mergeGroup g.2)

/-! ## The spreadsheet-binary path (`parseExcel`, lines 140–300) -/

/-- Is a sheet cell present (`cell !== null && cell !== ''`)? -/
def isCellPresent : Option Value → Bool
  | none => false
  | some v => if v = Value.vStr "" then false else true

/-- Locate the header row (`parseExcel` lines 175–185): the first of the
first ten rows containing at least one present cell; default `0`. -/
def findHeaderRowIndex (rawJson : List (List (Option Value))) : Nat :=
  match (List.range (min 10 rawJson.length)).find?
      (fun i => (rawJson.getD i []).any isCellPresent) with
  | some i => i
  | none => 0

/-- Valid headers with their original column indices (`parseExcel`
lines 190–200): keep header cells that are not `null`/`''`; the emitted
name is `String(header).trim()`. -/
def excelValidHeaders (headerRow : List (Option Value)) :
    List String × List Nat :=
  headerRow.enum.foldl
    (fun acc p =>
      match p.2 with
      | none => acc
      | some v =>
        if v = Value.vStr "" then acc
        else (acc.1 ++ [jsTrim v.toKey], acc.2 ++ [p.1]))
    ([], [])

/-- One data row of the spreadsheet path (`parseExcel` lines 213–230):
build the record from the valid headers at their tracked original
indices, counting the empty mapped fields. -/
def excelRowStep (validHeaders : List String) (validIdx : List Nat)
    (row : List (Option Value)) : PropertyUnit × Nat :=
  (validHeaders.zip validIdx).foldl
    (fun acc p =>
      if p.2 < row.length then
        match row.getD p.2 none with
        | none => (acc.1, acc.2 + 1)
        | some v =>
          if v = Value.vStr "" then (acc.1, acc.2 + 1)
          else (jsSet acc.1 p.1 v, acc.2)
      else acc)
    ([], 0)

/-- Keep or discard one data row (`parseExcel` lines 232–241): discard
when more than 50% of the mapped fields are empty
(`emptyCount > validHeaders.length * 0.5`), or when no field is
populated. -/
def excelProcessRow (validHeaders : List String) (validIdx : List Nat)
    (row : List (Option Value)) : Option PropertyUnit :=
  let s := excelRowStep validHeaders validIdx row
  if 2 * s.2 > validHeaders.length then none
  else if s.1.isEmpty then none
  else some s.1

/-- Split a character list at every character satisfying the predicate. -/
def splitPredAux (p : Char → Bool) : List Char → List Char → List String
  | [], acc => [String.mk acc.reverse]
  | c :: rest, acc =>
    if p c then String.mk acc.reverse :: splitPredAux p rest []
    else splitPredAux p rest (c :: acc)

/-- JS `word.charAt(0).toUpperCase() + word.slice(1).toLowerCase()`
(ASCII case model). -/
def capitalizeWord (w : String) : String :=
  match w.data with
  | [] => ""
  | c :: rest => String.mk (c.toUpper :: rest.map Char.toLower)

/-- Readable label (`parseExcel` lines 271–277): split on `_` or
whitespace, capitalize each word, join with single spaces. -/
def excelLabel (header : String) : String :=
  String.intercalate " "
    ((splitPredAux (fun c => c = '_' ∨ isJsSpace c) header.data []).map capitalizeWord)

/-- Field-type detection of the spreadsheet path (`parseExcel`
lines 249–268): scan for the first non-empty value; an actual number is
numeric with the example kept as-is; a string is numeric when
`!isNaN(Number(value))` and it does not trim to the empty string. -/
def detectFieldExcel : List PropertyUnit → String → FieldInfo
  | [], header => ⟨"string", excelLabel header, none⟩
  | item :: rest, header =>
    match jsGet item header with
    | none => detectFieldExcel rest header
    | some v =>
      if v = Value.vStr "" then detectFieldExcel rest header
      else
        match v with
        | Value.vNum n => ⟨"number", excelLabel header, some (Value.vNum n)⟩
        | Value.vStr s =>
          if jsStringToNumber s ≠ JsNum.nan ∧ jsTrim s ≠ "" then
            ⟨"number", excelLabel header, some (Value.vNum (jsStringToNumber s))⟩
          else ⟨"string", excelLabel header, some (Value.vStr s)⟩

/-- The spreadsheet-binary path from the decoded sheet matrix onwards
(`parseExcel` lines 170–290; the `xlsx` workbook decoding feeding
`rawJson` is the external library). -/
def parseExcelFromRows (rawJson : List (List (Option Value))) : ParseResult :=
  if rawJson.isEmpty then ⟨[], [], []⟩
  else
    let headerRowIndex := findHeaderRowIndex rawJson
    let hp := excelValidHeaders (rawJson.getD headerRowIndex [])
    let parsedData := (rawJson.drop (headerRowIndex + 1)).foldl
      (fun acc row =>
        if row.isEmpty then acc
        else if row.all (fun c => ¬ isCellPresent c) then acc
        else
          match excelProcessRow hp.1 hp.2 row with
          | some item => acc ++ [item]
          | none => acc)
      []
    let detected := hp.1.foldl
      (fun m h => jsSet m h (detectFieldExcel parsedData h)) []
    ⟨parsedData, hp.1, detected⟩

instance {ε α : Type} [DecidableEq ε] [DecidableEq α] :
    DecidableEq (Except ε α) := fun a b =>
  match a, b with
  | .ok x, .ok y =>
    if h : x = y then isTrue (by rw [h])
    else isFalse (fun hc => h (Except.ok.inj hc))
  | .error x, .error y =>
    if h : x = y then isTrue (by rw [h])
    else isFalse (fun hc => h (Except.error.inj hc))
  | .ok _, .error _ => isFalse (fun hc => Except.noConfusion hc)
  | .error _, .ok _ => isFalse (fun hc => Except.noConfusion hc)

/-! ## `parseFile` (lines 404–451) and the Excel fallback (lines 454–519) -/

/-- JS `String.prototype.toUpperCase` (ASCII model). -/
def jsToUpperCase (s : String) : String := String.mk (s.data.map Char.toUpper)

/-- Error wrapper of `parseExcelFallback` (lines 454–519): when the
relaxed re-parse itself fails, the rejection message wraps the fallback
attempt's own cause. The workbook re-read with relaxed options is the
external library call; its outcome is the parameter. -/
def parseExcelFallbackModel (underlying : Except String ParseResult) :
    Except String ParseResult :=
  match underlying with
  | .ok r => .ok r
  | .error cause => .error ("Fallback Excel parsing failed: " ++ cause)

/-- Model of `parseFile` (lines 404–451) for an already-lowercased extension: size
guard, dispatch on the extension, one fallback re-parse for the
spreadsheet path, merging, and the error wrapper of the outer `catch`
block. The two external spreadsheet reads are passed as outcomes
(`excelAttempt` is `parseExcel`'s result, `fallbackUnderlying` the
relaxed re-read's). -/
def parseFileModel (extension : String) (size : Nat) (fileText : String)
    (excelAttempt : Except String ParseResult)
    (fallbackUnderlying : Except String ParseResult) :
    Except String ParseResult :=
  if size > 50 * 1024 * 1024 then .error "File too large (max 50MB)"
  else
    let inner : Except String ParseResult :=
      if extension = "csv" then .ok (parseCSV fileText)
      else if extension = "xls" ∨ extension = "xlsx" then
        match excelAttempt with
        | .ok r => .ok r
        | .error _ => parseExcelFallbackModel fallbackUnderlying
      else .error ("Unsupported file extension: " ++ extension)
    match inner with
    | .ok r => .ok { r with data := mergeUnitsByName r.data }
    | .error msg =>
      .error ("Failed to parse " ++ jsToUpperCase extension ++ " file: " ++ msg)

/-! ## Spec-side helper definitions -/

/-- First non-empty value of a column across the record list (the spec's
"scanning records until the first non-empty value"). -/
def firstNonEmptyValue (data : List PropertyUnit) (header : String) :
    Option Value :=
  data.findSome?
    (fun item =>
      match jsGet item header with
      | none => none
      | some v => if v = Value.vStr "" then none else some v)

/-- Does the entire (trimmed) string parse as a **finite** number? The
spec's stated numeric-inference criterion. -/
def parsesAsFiniteNumber (s : String) : Prop :=
  ∃ q : ℚ, jsStringToNumber s = .fin q

/-- Pointwise description of `mergeField`: the merged value of one field
slot, given the accumulator's current slot and the incoming value. -/
def mergedSlot (accSlot : Option Value) (key : String) (cur : Value) :
    Option Value :=
  if cur = Value.vStr "" then accSlot
  else
    match accSlot with
    | none => some cur
    | some accV =>
      if accV = Value.vStr "" then some cur
      else
        match accV, cur with
        | Value.vNum a, Value.vNum c =>
          if key ∈ fieldsToSum then some (Value.vNum (a.add c)) else some accV
        | Value.vStr a, Value.vStr c =>
          if a ≠ c then some (Value.vStr (a ++ ", " ++ c)) else some accV
        | _, _ => some accV

/-- The coerced grouping key of a record, when its `Unit Name` value is
present and truthy. -/
def keyOfRecord (r : PropertyUnit) : Option String :=
  match jsGet r unitNameKey with
  | none => none
  | some v => if v.truthy then some v.toKey else none

/-- The truthy `Unit Name` keys of a record list, in order. -/
def truthyKeys (xs : List PropertyUnit) : List String :=
  xs.filterMap keyOfRecord

/-- The distinct `Unit Name` **values** (not coerced) present in a record
list, excluding empty-string values — the claim's reading of "distinct
non-empty 'Unit Name' value". -/
def distinctUnitNameValues (xs : List PropertyUnit) : List Value :=
  ((xs.filterMap (fun r => jsGet r unitNameKey)).filter
    (fun v => v ≠ Value.vStr "")).dedup

/-- Substring test (used to state what a surfaced error message carries). -/
def strContains (hay needle : String) : Bool :=
  (List.range (hay.data.length + 1)).any
    (fun i => needle.data.isPrefixOf (hay.data.drop i))

/-- Every field value of the record is a string. -/
def AllStr (r : PropertyUnit) : Prop :=
  ∀ p ∈ r, ∃ s, p.2 = Value.vStr s

/-- Variant of `mergeField` with the numeric branch replaced by plain first-wins: the
comparison merger used to state that the numeric-sum branch is never
exercised by delimited-text data. -/
def mergeFieldNoNum (acc : PropertyUnit) (key : String) (cur : Value) :
    PropertyUnit :=
  if cur = Value.vStr "" then acc
  else
    match jsGet acc key with
    | none => jsSet acc key cur
    | some accV =>
      if accV = Value.vStr "" then jsSet acc key cur
      else
        match accV, cur with
        | Value.vNum _, Value.vNum _ => acc
        | Value.vStr a, Value.vStr c =>
          if a ≠ c then jsSet acc key (Value.vStr (a ++ ", " ++ c)) else acc
        | _, _ => acc

/-- The merger built on `mergeFieldNoNum`. -/
def mergeUnitsByNameNoNum (data : List PropertyUnit) : List PropertyUnit :=
  (jsKeyOrder (groupByName data)).map
    (fun g =>
      match g.2 with
      | [] => []
      | u :: rest => rest.foldl (fun acc r => r.foldl (fun a p => mergeFieldNoNum a p.1 p.2) acc) u)

/-- Numeric-inference criterion of the spreadsheet path, as a predicate on
the first non-empty value: an actual number, or a string whose entire form
parses as a number other than `NaN` and which does not trim to the empty
string. -/
def excelNumericValue : Value → Prop
  | Value.vNum _ => True
  | Value.vStr s => jsStringToNumber s ≠ JsNum.nan ∧ jsTrim s ≠ ""

/-! ## Association-list lemmas -/

theorem any_key_eq_isSome {β : Type} (m : List (String × β)) (k : String) :
    m.any (fun p => p.1 = k) = (jsGet m k).isSome := by
  induction m with
  | nil => simp [jsGet]
  | cons p t ih =>
    obtain ⟨pk, pv⟩ := p
    by_cases h : pk = k <;> simp [jsGet, h, ih]

theorem jsGet_eq_none_iff {β : Type} (m : List (String × β)) (k : String) :
    jsGet m k = none ↔ k ∉ m.map Prod.fst := by
  induction m with
  | nil => simp [jsGet]
  | cons p t ih =>
    obtain ⟨pk, pv⟩ := p
    by_cases h : pk = k
    · subst h; simp [jsGet]
    · simp [jsGet, h, ih, Ne.symm h]

theorem jsGet_append {β : Type} (m1 m2 : List (String × β)) (k : String) :
    jsGet (m1 ++ m2) k =
      (match jsGet m1 k with
       | some v => some v
       | none => jsGet m2 k) := by
  induction m1 with
  | nil => simp [jsGet]
  | cons p t ih =>
    obtain ⟨pk, pv⟩ := p
    by_cases h : pk = k <;> simp [jsGet, h, ih]

theorem jsGet_map_replace {β : Type} (m : List (String × β)) (k : String)
    (v : β) (j : String) :
    jsGet (m.map (fun p => if p.1 = k then (p.1, v) else p)) j =
      if j = k then (jsGet m k).map (fun _ => v) else jsGet m j := by
  induction m with
  | nil => by_cases h : j = k <;> simp [jsGet, h]
  | cons p t ih =>
    obtain ⟨pk, pv⟩ := p
    rw [List.map_cons]
    have hhead : (if (pk, pv).1 = k then ((pk, pv).1, v) else (pk, pv))
        = (pk, if pk = k then v else pv) := by
      by_cases h : pk = k <;> simp [h]
    rw [hhead]
    simp only [jsGet]
    by_cases h1 : pk = k
    · subst h1
      by_cases h2 : pk = j
      · subst h2; simp [jsGet]
      · simp [jsGet, h2, ih, Ne.symm h2]
    · by_cases h2 : pk = j
      · subst h2
        simp [jsGet, h1, Ne.symm h1]
      · simp [jsGet, h1, h2, ih]

theorem jsGet_jsSet {β : Type} (m : List (String × β)) (k : String) (v : β)
    (j : String) :
    jsGet (jsSet m k v) j = if j = k then some v else jsGet m j := by
  unfold jsSet
  by_cases hmem : m.any (fun p => p.1 = k)
  · rw [if_pos hmem, jsGet_map_replace]
    by_cases hj : j = k
    · rw [any_key_eq_isSome] at hmem
      cases hget : jsGet m k with
      | none => rw [hget] at hmem; simp at hmem
      | some w => simp [hj, hget]
    · simp [hj]
  · rw [if_neg hmem, jsGet_append]
    have hnone : jsGet m k = none := by
      rw [any_key_eq_isSome] at hmem
      cases hget : jsGet m k with
      | none => rfl
      | some w => rw [hget] at hmem; simp at hmem
    by_cases hj : j = k
    · subst hj; simp [hnone, jsGet]
    · cases hget : jsGet m j with
      | none => simp [hj, jsGet, Ne.symm hj]
      | some w => simp [hj]

theorem keys_map_replace {β : Type} (m : List (String × β)) (k : String) (v : β) :
    (m.map (fun p => if p.1 = k then (p.1, v) else p)).map Prod.fst =
      m.map Prod.fst := by
  induction m with
  | nil => simp
  | cons p t ih =>
    obtain ⟨pk, pv⟩ := p
    by_cases h : pk = k
    · subst h; simp [ih]
    · simp [h, ih]

theorem keys_jsSet {β : Type} (m : List (String × β)) (k : String) (v : β) :
    (jsSet m k v).map Prod.fst =
      if (jsGet m k).isSome then m.map Prod.fst else m.map Prod.fst ++ [k] := by
  unfold jsSet
  rw [any_key_eq_isSome]
  by_cases h : (jsGet m k).isSome
  · rw [if_pos h, if_pos h]
    exact keys_map_replace m k v
  · rw [if_neg h, if_neg h]
    simp

theorem WfRecord.preserve_jsSet {β : Type} {m : List (String × β)}
    (hm : WfRecord m) (k : String) (v : β) : WfRecord (jsSet m k v) := by
  unfold WfRecord at *
  rw [keys_jsSet]
  by_cases h : (jsGet m k).isSome
  · simpa [h]
  · have : k ∉ m.map Prod.fst := by
      rw [← jsGet_eq_none_iff]
      cases hget : jsGet m k with
      | none => rfl
      | some w => rw [hget] at h; simp at h
    simp [h, List.nodup_append, hm, this]

theorem mem_jsSet {β : Type} (m : List (String × β)) (k : String) (v : β) :
    ∀ p ∈ jsSet m k v, p ∈ m ∨ p.2 = v := by
  unfold jsSet
  by_cases hmem : m.any (fun p => p.1 = k)
  · rw [if_pos hmem]
    intro p hp
    rw [List.mem_map] at hp
    obtain ⟨q, hq, hqe⟩ := hp
    by_cases h : q.1 = k
    · right; rw [← hqe, if_pos h]
    · left; rw [← hqe, if_neg h]; exact hq
  · rw [if_neg hmem]
    intro p hp
    rcases List.mem_append.mp hp with h | h
    · exact Or.inl h
    · right; simp at h; rw [h]

/-! ## Merger lemmas -/

theorem jsGet_mergeField (acc : PropertyUnit) (key : String) (cur : Value)
    (j : String) :
    jsGet (mergeField acc key cur) j =
      if j = key then mergedSlot (jsGet acc key) key cur else jsGet acc j := by
  unfold mergeField mergedSlot
  by_cases hc : cur = Value.vStr ""
  · simp only [if_pos hc]
    by_cases hj : j = key <;> simp [hj]
  · simp only [if_neg hc]
    cases hget : jsGet acc key with
    | none => by_cases hj : j = key <;> simp [hj, jsGet_jsSet]
    | some accV =>
      by_cases he : accV = Value.vStr ""
      · simp only [if_pos he]
        by_cases hj : j = key <;> simp [hj, jsGet_jsSet]
      · simp only [if_neg he]
        cases accV with
        | vStr s =>
          cases cur with
          | vNum c => by_cases hj : j = key <;> simp [hj, hget]
          | vStr c =>
            by_cases hsc : s ≠ c
            · by_cases hj : j = key <;> simp [hsc, hj, jsGet_jsSet]
            · by_cases hj : j = key <;> simp [hsc, hj, hget]
        | vNum a =>
          cases cur with
          | vNum c =>
            by_cases hmem : key ∈ fieldsToSum
            · by_cases hj : j = key <;> simp [hmem, hj, jsGet_jsSet]
            · by_cases hj : j = key <;> simp [hmem, hj, hget]
          | vStr c => by_cases hj : j = key <;> simp [hj, hget]

theorem WfRecord.preserve_mergeField {acc : PropertyUnit}
    (hacc : WfRecord acc) (key : String) (cur : Value) :
    WfRecord (mergeField acc key cur) := by
  unfold mergeField
  by_cases hc : cur = Value.vStr ""
  · simpa [hc]
  · simp only [if_neg hc]
    cases hget : jsGet acc key with
    | none => exact hacc.preserve_jsSet key cur
    | some accV =>
      by_cases he : accV = Value.vStr ""
      · simp only [if_pos he]; exact hacc.preserve_jsSet key cur
      · simp only [if_neg he]
        cases accV with
        | vStr s =>
          cases cur with
          | vNum c => exact hacc
          | vStr c =>
            by_cases hsc : s ≠ c
            · simp only [if_pos hsc]; exact hacc.preserve_jsSet key _
            · simpa [hsc]
        | vNum a =>
          cases cur with
          | vNum c =>
            by_cases hmem : key ∈ fieldsToSum
            · simp only [if_pos hmem]; exact hacc.preserve_jsSet key _
            · simpa [hmem]
          | vStr c => exact hacc

theorem WfRecord.preserve_mergeTwo {acc : PropertyUnit} (hacc : WfRecord acc)
    (u : PropertyUnit) : WfRecord (mergeTwo acc u) := by
  unfold mergeTwo
  induction u generalizing acc with
  | nil => exact hacc
  | cons p t ih => exact ih (hacc.preserve_mergeField p.1 p.2)

theorem jsGet_mergeTwo_of_notMem (acc u : PropertyUnit) (j : String)
    (hj : j ∉ u.map Prod.fst) :
    jsGet (mergeTwo acc u) j = jsGet acc j := by
  unfold mergeTwo
  induction u generalizing acc with
  | nil => rfl
  | cons p t ih =>
    simp only [List.map_cons, List.mem_cons] at hj
    push_neg at hj
    rw [List.foldl_cons, ih _ hj.2, jsGet_mergeField, if_neg hj.1]

theorem jsGet_mergeTwo :
    ∀ (u acc : PropertyUnit) (f : String) (v : Value), WfRecord u →
      jsGet u f = some v →
      jsGet (mergeTwo acc u) f = mergedSlot (jsGet acc f) f v := by
  intro u
  induction u with
  | nil => intro acc f v _ hv; simp [jsGet] at hv
  | cons p t ih =>
    intro acc f v hwf hv
    obtain ⟨pk, pv⟩ := p
    have hwf' : pk ∉ t.map Prod.fst ∧ WfRecord t := by
      unfold WfRecord at hwf ⊢
      simpa [List.nodup_cons] using hwf
    show jsGet (mergeTwo (mergeField acc pk pv) t) f = _
    by_cases hpf : pk = f
    · subst hpf
      have hpv : pv = v := by simpa [jsGet] using hv
      subst hpv
      rw [jsGet_mergeTwo_of_notMem _ _ _ hwf'.1, jsGet_mergeField, if_pos rfl]
    · have hvt : jsGet t f = some v := by simpa [jsGet, hpf] using hv
      rw [ih (mergeField acc pk pv) f v hwf'.2 hvt, jsGet_mergeField,
        if_neg (fun h => hpf h.symm)]

/-! ## Grouping lemmas -/

theorem groupStep_eq_keyOf (gs : List (String × List PropertyUnit))
    (u : PropertyUnit) :
    groupStep gs u =
      match keyOfRecord u with
      | none => gs
      | some k => insertGroup gs k u := by
  unfold groupStep keyOfRecord
  cases jsGet u unitNameKey with
  | none => rfl
  | some v => by_cases h : v.truthy <;> simp [h]

theorem any_fst_iff {β : Type} (gs : List (String × β)) (k : String) :
    gs.any (fun g => g.1 = k) = true ↔ k ∈ gs.map Prod.fst := by
  rw [List.any_eq_true]
  constructor
  · rintro ⟨g, hg, he⟩
    exact List.mem_map.mpr ⟨g, hg, of_decide_eq_true he⟩
  · intro h
    obtain ⟨g, hg, he⟩ := List.mem_map.mp h
    exact ⟨g, hg, decide_eq_true he⟩

theorem keys_map_keyUpdate {β : Type} (gs : List (String × β)) (k : String)
    (f : String × β → β) :
    ((gs.map (fun g => if g.1 = k then (g.1, f g) else g)).map Prod.fst) =
      gs.map Prod.fst := by
  induction gs with
  | nil => rfl
  | cons g t ih =>
    obtain ⟨gk, gv⟩ := g
    by_cases h : gk = k <;> simp [h, ih]

theorem keys_insertGroup (gs : List (String × List PropertyUnit)) (k : String)
    (u : PropertyUnit) :
    (insertGroup gs k u).map Prod.fst =
      if k ∈ gs.map Prod.fst then gs.map Prod.fst
      else gs.map Prod.fst ++ [k] := by
  unfold insertGroup
  by_cases h : k ∈ gs.map Prod.fst
  · rw [if_pos ((any_fst_iff gs k).mpr h), if_pos h]
    exact keys_map_keyUpdate gs k (fun g => g.2 ++ [u])
  · rw [if_neg (fun hc => h ((any_fst_iff gs k).mp hc)), if_neg h]
    simp

theorem mem_insertGroup (gs : List (String × List PropertyUnit)) (k : String)
    (u : PropertyUnit) :
    ∀ g ∈ insertGroup gs k u,
      g ∈ gs ∨ (∃ g₀ ∈ gs, g₀.1 = k ∧ g = (g₀.1, g₀.2 ++ [u])) ∨ g = (k, [u]) := by
  unfold insertGroup
  by_cases h : gs.any (fun g => g.1 = k)
  · rw [if_pos h]
    intro g hg
    rw [List.mem_map] at hg
    obtain ⟨g₀, hg₀, hge⟩ := hg
    by_cases hk : g₀.1 = k
    · right; left; exact ⟨g₀, hg₀, hk, by rw [← hge, if_pos hk]⟩
    · left; rw [← hge, if_neg hk]; exact hg₀
  · rw [if_neg h]
    intro g hg
    rcases List.mem_append.mp hg with hmem | hmem
    · exact Or.inl hmem
    · right; right; simpa using hmem

theorem truthyKeys_cons_none {x : PropertyUnit} {xs : List PropertyUnit}
    (h : keyOfRecord x = none) : truthyKeys (x :: xs) = truthyKeys xs := by
  unfold truthyKeys
  simp [List.filterMap_cons, h]

theorem truthyKeys_cons_some {x : PropertyUnit} {xs : List PropertyUnit}
    {k : String} (h : keyOfRecord x = some k) :
    truthyKeys (x :: xs) = k :: truthyKeys xs := by
  unfold truthyKeys
  simp [List.filterMap_cons, h]

theorem keys_groupFold_mem :
    ∀ (xs : List PropertyUnit) (gs : List (String × List PropertyUnit))
      (k : String),
      k ∈ (xs.foldl groupStep gs).map Prod.fst ↔
        k ∈ gs.map Prod.fst ∨ k ∈ truthyKeys xs := by
  intro xs
  induction xs with
  | nil => intro gs k; simp [truthyKeys]
  | cons x t ih =>
    intro gs k
    rw [List.foldl_cons, ih, groupStep_eq_keyOf]
    cases hx : keyOfRecord x with
    | none => rw [truthyKeys_cons_none hx]
    | some k0 =>
      rw [truthyKeys_cons_some hx, keys_insertGroup]
      by_cases hmem : k0 ∈ gs.map Prod.fst
      · rw [if_pos hmem]
        constructor
        · rintro (h | h)
          · exact Or.inl h
          · exact Or.inr (List.mem_cons_of_mem _ h)
        · rintro (h | h)
          · exact Or.inl h
          · rcases List.mem_cons.mp h with h | h
            · exact Or.inl (h ▸ hmem)
            · exact Or.inr h
      · rw [if_neg hmem]
        simp only [List.mem_append, List.mem_singleton, List.mem_cons]
        tauto

theorem keys_groupFold_nodup :
    ∀ (xs : List PropertyUnit) (gs : List (String × List PropertyUnit)),
      (gs.map Prod.fst).Nodup → ((xs.foldl groupStep gs).map Prod.fst).Nodup := by
  intro xs
  induction xs with
  | nil => intro gs h; exact h
  | cons x t ih =>
    intro gs h
    rw [List.foldl_cons]
    apply ih
    rw [groupStep_eq_keyOf]
    cases hx : keyOfRecord x with
    | none => exact h
    | some k0 =>
      rw [keys_insertGroup]
      by_cases hmem : k0 ∈ gs.map Prod.fst
      · rwa [if_pos hmem]
      · rw [if_neg hmem]
        simp [List.nodup_append, h, hmem]

theorem groupFold_inv (P : PropertyUnit → Prop) :
    ∀ (xs : List PropertyUnit) (gs : List (String × List PropertyUnit)),
      (∀ x ∈ xs, P x) →
      (∀ g ∈ gs, g.2 ≠ [] ∧ ∀ u ∈ g.2, P u ∧ keyOfRecord u = some g.1) →
      ∀ g ∈ xs.foldl groupStep gs,
        g.2 ≠ [] ∧ ∀ u ∈ g.2, P u ∧ keyOfRecord u = some g.1 := by
  intro xs
  induction xs with
  | nil => intro gs _ hgs; exact hgs
  | cons x t ih =>
    intro gs hP hgs
    rw [List.foldl_cons]
    refine ih (groupStep gs x) (fun r hr => hP r (List.mem_cons_of_mem _ hr)) ?_
    rw [groupStep_eq_keyOf]
    cases hx : keyOfRecord x with
    | none => exact hgs
    | some k0 =>
      intro g hg
      rcases mem_insertGroup gs k0 x g hg with hmem | ⟨g₀, hg₀, hk, he⟩ | he
      · exact hgs g hmem
      · subst he
        obtain ⟨hne, hall⟩ := hgs g₀ hg₀
        refine ⟨by simp, ?_⟩
        intro u hu
        rcases List.mem_append.mp hu with hu | hu
        · exact hall u hu
        · simp only [List.mem_singleton] at hu
          subst hu
          exact ⟨hP u (List.mem_cons_self _ _), by rw [hx, hk]⟩
      · subst he
        refine ⟨by simp, ?_⟩
        intro u hu
        simp only [List.mem_singleton] at hu
        subst hu
        exact ⟨hP u (List.mem_cons_self _ _), hx⟩

theorem groupFold_fresh :
    ∀ (xs : List PropertyUnit) (gs : List (String × List PropertyUnit)),
      (∀ r ∈ xs, (keyOfRecord r).isSome) →
      (truthyKeys xs).Nodup →
      (∀ k ∈ truthyKeys xs, k ∉ gs.map Prod.fst) →
      xs.foldl groupStep gs =
        gs ++ xs.map (fun r => ((keyOfRecord r).getD "", [r])) := by
  intro xs
  induction xs with
  | nil => intro gs _ _ _; simp
  | cons x t ih =>
    intro gs hsome hnd hfresh
    have hx : ∃ k, keyOfRecord x = some k := by
      have := hsome x (List.mem_cons_self _ _)
      cases h : keyOfRecord x with
      | none => rw [h] at this; simp at this
      | some k => exact ⟨k, rfl⟩
    obtain ⟨k, hk⟩ := hx
    rw [truthyKeys_cons_some hk] at hnd hfresh
    rw [List.foldl_cons, groupStep_eq_keyOf, hk]
    have hknot : k ∉ gs.map Prod.fst := hfresh k (List.mem_cons_self _ _)
    have hins : insertGroup gs k x = gs ++ [(k, [x])] := by
      unfold insertGroup
      rw [if_neg (fun hc => hknot ((any_fst_iff gs k).mp hc))]
    have hfresh' : ∀ k' ∈ truthyKeys t, k' ∉ (gs ++ [(k, [x])]).map Prod.fst := by
      intro k' hk'
      simp only [List.map_append, List.mem_append]
      rintro (h | h)
      · exact hfresh k' (List.mem_cons_of_mem _ hk') h
      · simp at h
        subst h
        exact (List.nodup_cons.mp hnd).1 hk'
    show List.foldl groupStep (insertGroup gs k x) t = _
    rw [hins, ih (gs ++ [(k, [x])])
      (fun r hr => hsome r (List.mem_cons_of_mem _ hr))
      (List.Nodup.of_cons hnd) hfresh']
    simp [hk]

/-! ## Preservation of the natural-key slot under merging -/

theorem unitName_not_summable : unitNameKey ∉ fieldsToSum := by decide

theorem append_comma_ne_empty (a c : String) : a ++ ", " ++ c ≠ "" := by
  intro h
  have hd := congrArg String.data h
  rw [String.data_append, String.data_append] at hd
  have hcomma : (", " : String).data = [',', ' '] := rfl
  rw [hcomma] at hd
  simp at hd

theorem truthy_ne_empty {v : Value} (hv : v.truthy = true) :
    v ≠ Value.vStr "" := by
  intro h
  rw [h] at hv
  simp [Value.truthy] at hv

theorem mergedSlot_unitName_truthy {v : Value} (hv : v.truthy = true)
    (cur : Value) :
    ∃ v', mergedSlot (some v) unitNameKey cur = some v' ∧ v'.truthy = true := by
  unfold mergedSlot
  by_cases hc : cur = Value.vStr ""
  · exact ⟨v, by simp [hc], hv⟩
  · simp only [if_neg hc, if_neg (truthy_ne_empty hv)]
    cases v with
    | vStr a =>
      cases cur with
      | vNum c => exact ⟨Value.vStr a, by simp, hv⟩
      | vStr c =>
        by_cases hac : a ≠ c
        · exact ⟨Value.vStr (a ++ ", " ++ c), by simp [hac],
            by simp [Value.truthy, append_comma_ne_empty a c]⟩
        · exact ⟨Value.vStr a, by simp [hac], hv⟩
    | vNum a =>
      cases cur with
      | vNum c => exact ⟨Value.vNum a, by simp [unitName_not_summable], hv⟩
      | vStr c => exact ⟨Value.vNum a, by simp, hv⟩

theorem mergedSlot_unitName_eq {v cur : Value} (hv : v.truthy = true)
    (hk : cur.toKey = v.toKey) :
    mergedSlot (some v) unitNameKey cur = some v := by
  unfold mergedSlot
  by_cases hc : cur = Value.vStr ""
  · simp [hc]
  · simp only [if_neg hc, if_neg (truthy_ne_empty hv)]
    cases v with
    | vStr a =>
      cases cur with
      | vNum c => simp
      | vStr c =>
        have hca : c = a := by simpa [Value.toKey] using hk
        simp [hca]
    | vNum a =>
      cases cur with
      | vNum c => simp [unitName_not_summable]
      | vStr c => simp

theorem jsGet_mergeTwo_truthy :
    ∀ (u acc : PropertyUnit) (v : Value),
      jsGet acc unitNameKey = some v → v.truthy = true →
      ∃ v', jsGet (mergeTwo acc u) unitNameKey = some v' ∧ v'.truthy = true := by
  intro u
  induction u with
  | nil => intro acc v h hv; exact ⟨v, h, hv⟩
  | cons p t ih =>
    intro acc v h hv
    show ∃ v', jsGet (mergeTwo (mergeField acc p.1 p.2) t) unitNameKey = some v' ∧ _
    by_cases hp : p.1 = unitNameKey
    · obtain ⟨v', hv', ht'⟩ := mergedSlot_unitName_truthy hv p.2
      refine ih (mergeField acc p.1 p.2) v' ?_ ht'
      rw [jsGet_mergeField, if_pos hp.symm, hp, h]
      exact hv'
    · refine ih (mergeField acc p.1 p.2) v ?_ hv
      rw [jsGet_mergeField, if_neg (fun hc => hp hc.symm)]
      exact h

theorem foldl_mergeTwo_truthy :
    ∀ (rest : List PropertyUnit) (acc : PropertyUnit) (v : Value),
      jsGet acc unitNameKey = some v → v.truthy = true →
      ∃ v', jsGet (rest.foldl mergeTwo acc) unitNameKey = some v' ∧
        v'.truthy = true := by
  intro rest
  induction rest with
  | nil => intro acc v h hv; exact ⟨v, h, hv⟩
  | cons u t ih =>
    intro acc v h hv
    obtain ⟨v', hv', ht'⟩ := jsGet_mergeTwo_truthy u acc v h hv
    exact ih (mergeTwo acc u) v' hv' ht'

theorem keyOfRecord_some_iff (r : PropertyUnit) (k : String) :
    keyOfRecord r = some k ↔
      ∃ v, jsGet r unitNameKey = some v ∧ v.truthy = true ∧ v.toKey = k := by
  unfold keyOfRecord
  cases jsGet r unitNameKey with
  | none => simp
  | some v =>
    by_cases h : v.truthy <;> simp [h]

theorem foldl_mergeTwo_unitName_eq :
    ∀ (rest : List PropertyUnit) (acc : PropertyUnit) (v : Value) (k : String),
      (∀ u ∈ rest, WfRecord u) → (∀ u ∈ rest, keyOfRecord u = some k) →
      jsGet acc unitNameKey = some v → v.truthy = true → v.toKey = k →
      jsGet (rest.foldl mergeTwo acc) unitNameKey = some v := by
  intro rest
  induction rest with
  | nil => intro acc v k _ _ h _ _; exact h
  | cons u t ih =>
    intro acc v k hwf hkeys h hv hk
    obtain ⟨vu, hvu, htu, hku⟩ :=
      (keyOfRecord_some_iff u k).mp (hkeys u (List.mem_cons_self _ _))
    have hstep : jsGet (mergeTwo acc u) unitNameKey = some v := by
      rw [jsGet_mergeTwo u acc unitNameKey vu (hwf u (List.mem_cons_self _ _)) hvu,
        h, mergedSlot_unitName_eq hv (by rw [hku, hk])]
    exact ih (mergeTwo acc u) v k (fun x hx => hwf x (List.mem_cons_of_mem _ hx))
      (fun x hx => hkeys x (List.mem_cons_of_mem _ hx)) hstep hv hk

/-! ## ECMAScript key-enumeration order -/

theorem insertByIndex_perm {β : Type} (g : String × β) (l : List (String × β)) :
    List.Perm (insertByIndex g l) (g :: l) := by
  induction l with
  | nil => exact List.Perm.refl _
  | cons h t ih =>
    unfold insertByIndex
    by_cases hle : digitsToNat g.1.data ≤ digitsToNat h.1.data
    · rw [if_pos hle]
    · rw [if_neg hle]
      exact (ih.cons h).trans (List.Perm.swap g h t)

theorem sortByIndex_perm {β : Type} (l : List (String × β)) :
    List.Perm (sortByIndex l) l := by
  induction l with
  | nil => exact List.Perm.refl _
  | cons h t ih =>
    show List.Perm (insertByIndex h (sortByIndex t)) (h :: t)
    exact (insertByIndex_perm h (sortByIndex t)).trans (ih.cons h)

theorem mem_insertByIndex {β : Type} (g x : String × β) (l : List (String × β)) :
    x ∈ insertByIndex g l ↔ x = g ∨ x ∈ l := by
  rw [(insertByIndex_perm g l).mem_iff]
  simp

theorem pairwise_insertByIndex {β : Type} (g : String × β)
    (l : List (String × β))
    (hl : l.Pairwise (fun a b => digitsToNat a.1.data ≤ digitsToNat b.1.data)) :
    (insertByIndex g l).Pairwise
      (fun a b => digitsToNat a.1.data ≤ digitsToNat b.1.data) := by
  induction l with
  | nil => simp [insertByIndex]
  | cons h t ih =>
    rw [List.pairwise_cons] at hl
    unfold insertByIndex
    by_cases hle : digitsToNat g.1.data ≤ digitsToNat h.1.data
    · rw [if_pos hle, List.pairwise_cons]
      constructor
      · intro b hb
        rcases List.mem_cons.mp hb with rfl | hb
        · exact hle
        · exact Nat.le_trans hle (hl.1 b hb)
      · exact List.pairwise_cons.mpr hl
    · rw [if_neg hle, List.pairwise_cons]
      constructor
      · intro b hb
        rcases (mem_insertByIndex g b t).mp hb with rfl | hb
        · omega
        · exact hl.1 b hb
      · exact ih hl.2

theorem sortByIndex_pairwise {β : Type} (l : List (String × β)) :
    (sortByIndex l).Pairwise
      (fun a b => digitsToNat a.1.data ≤ digitsToNat b.1.data) := by
  induction l with
  | nil => simp [sortByIndex]
  | cons h t ih => exact pairwise_insertByIndex h (sortByIndex t) ih

theorem sortByIndex_of_pairwise {β : Type} (l : List (String × β))
    (hl : l.Pairwise (fun a b => digitsToNat a.1.data ≤ digitsToNat b.1.data)) :
    sortByIndex l = l := by
  induction l with
  | nil => rfl
  | cons h t ih =>
    rw [List.pairwise_cons] at hl
    show insertByIndex h (sortByIndex t) = h :: t
    rw [ih hl.2]
    cases t with
    | nil => rfl
    | cons h2 t2 =>
      unfold insertByIndex
      rw [if_pos (hl.1 h2 (List.mem_cons_self _ _))]

theorem jsKeyOrder_perm {β : Type} (m : List (String × β)) :
    List.Perm (jsKeyOrder m) m := by
  unfold jsKeyOrder
  exact ((sortByIndex_perm _).append_right _).trans
    (List.filter_append_perm _ m)

theorem jsKeyOrder_eq_self_of_none {β : Type} (m : List (String × β))
    (h : ∀ g ∈ m, isArrayIndex g.1 = false) : jsKeyOrder m = m := by
  unfold jsKeyOrder
  rw [List.filter_eq_nil_iff.mpr (fun g hg => by simp [h g hg]),
    List.filter_eq_self.mpr (fun g hg => by simp [h g hg])]
  rfl

theorem jsKeyOrder_eq_self_of_split {β : Type} (a b : List (String × β))
    (ha : ∀ g ∈ a, isArrayIndex g.1 = true)
    (hsort : a.Pairwise (fun g h => digitsToNat g.1.data ≤ digitsToNat h.1.data))
    (hb : ∀ g ∈ b, isArrayIndex g.1 = false) :
    jsKeyOrder (a ++ b) = a ++ b := by
  unfold jsKeyOrder
  rw [List.filter_append, List.filter_append,
    List.filter_eq_self.mpr (fun g hg => by simp [ha g hg]),
    List.filter_eq_nil_iff.mpr (fun g (hg : g ∈ b) => by simp [hb g hg]),
    List.filter_eq_nil_iff.mpr (fun g (hg : g ∈ a) => by simp [ha g hg]),
    List.filter_eq_self.mpr (fun g (hg : g ∈ b) => by simp [hb g hg]),
    List.append_nil, List.nil_append, sortByIndex_of_pairwise a hsort]

theorem jsKeyOrder_eq_self_of_keys {β γ : Type} (m : List (String × β))
    (m' : List (String × γ))
    (hk : m'.map Prod.fst = (jsKeyOrder m).map Prod.fst) :
    jsKeyOrder m' = m' := by
  have hAB : jsKeyOrder m =
      sortByIndex (m.filter (fun g => isArrayIndex g.1)) ++
        m.filter (fun g => ! isArrayIndex g.1) := rfl
  set A := sortByIndex (m.filter (fun g => isArrayIndex g.1)) with hA
  set B := m.filter (fun g => ! isArrayIndex g.1) with hB
  rw [hAB] at hk
  have hAidx : ∀ k ∈ A.map Prod.fst, isArrayIndex k = true := by
    intro k hkk
    obtain ⟨g, hg, rfl⟩ := List.mem_map.mp hkk
    rw [hA] at hg
    have hgf := (sortByIndex_perm _).mem_iff.mp hg
    exact (List.mem_filter.mp hgf).2
  have hBidx : ∀ k ∈ B.map Prod.fst, isArrayIndex k = false := by
    intro k hkk
    obtain ⟨g, hg, rfl⟩ := List.mem_map.mp hkk
    rw [hB] at hg
    have := (List.mem_filter.mp hg).2
    simpa using this
  have hApair : (A.map Prod.fst).Pairwise
      (fun s t => digitsToNat s.data ≤ digitsToNat t.data) := by
    rw [List.pairwise_map]
    rw [hA]
    exact sortByIndex_pairwise _
  have hkt : (m'.take A.length).map Prod.fst = A.map Prod.fst := by
    rw [List.map_take, hk, List.map_append,
      List.take_left' (List.length_map A Prod.fst)]
  have hkd : (m'.drop A.length).map Prod.fst = B.map Prod.fst := by
    rw [List.map_drop, hk, List.map_append,
      List.drop_left' (List.length_map A Prod.fst)]
  have hsplit := (List.take_append_drop A.length m').symm
  rw [hsplit]
  apply jsKeyOrder_eq_self_of_split
  · intro g hg
    exact hAidx g.1 (hkt ▸ List.mem_map_of_mem Prod.fst hg)
  · have := hApair
    rw [← hkt, List.pairwise_map] at this
    exact this
  · intro g hg
    exact hBidx g.1 (hkd ▸ List.mem_map_of_mem Prod.fst hg)

theorem jsKeyOrder_singleton {β : Type} (g : String × β) :
    jsKeyOrder [g] = [g] := by
  by_cases h : isArrayIndex g.1 <;>
    simp [jsKeyOrder, h, sortByIndex, insertByIndex]

/-! ## Merger-level structure -/

theorem groupByName_eq (xs : List PropertyUnit) :
    groupByName xs = xs.foldl groupStep [] := rfl

theorem length_mergeUnitsByName (xs : List PropertyUnit) :
    (mergeUnitsByName xs).length = (truthyKeys xs).dedup.length := by
  have h1 : ((groupByName xs).map Prod.fst).Nodup := by
    rw [groupByName_eq]
    exact keys_groupFold_nodup xs [] (by simp)
  have h2 : ∀ k, k ∈ (groupByName xs).map Prod.fst ↔
      k ∈ (truthyKeys xs).dedup := by
    intro k
    rw [groupByName_eq, List.mem_dedup, keys_groupFold_mem xs [] k]
    simp
  have hperm := (List.perm_ext_iff_of_nodup h1 (List.nodup_dedup _)).mpr h2
  have hlen := hperm.length_eq
  rw [List.length_map] at hlen
  unfold mergeUnitsByName
  rw [List.length_map, (jsKeyOrder_perm (groupByName xs)).length_eq]
  exact hlen

theorem groupByName_inv (xs : List PropertyUnit) :
    ∀ g ∈ groupByName xs,
      g.2 ≠ [] ∧ ∀ u ∈ g.2, u ∈ xs ∧ keyOfRecord u = some g.1 := by
  rw [groupByName_eq]
  exact groupFold_inv (· ∈ xs) xs [] (fun x hx => hx) (by simp)

theorem mergeUnitsByName_keyed (xs : List PropertyUnit) :
    ∀ m ∈ mergeUnitsByName xs,
      ∃ v, jsGet m unitNameKey = some v ∧ v.truthy = true := by
  intro m hm
  unfold mergeUnitsByName at hm
  obtain ⟨g, hg, hge⟩ := List.mem_map.mp hm
  have hg' : g ∈ groupByName xs := (jsKeyOrder_perm _).mem_iff.mp hg
  obtain ⟨hne, hall⟩ := groupByName_inv xs g hg'
  rcases hgg : g.2 with _ | ⟨u0, rest⟩
  · exact absurd hgg hne
  · obtain ⟨v0, hv0, ht0, hk0⟩ := (keyOfRecord_some_iff u0 g.1).mp
      (hall u0 (hgg ▸ List.mem_cons_self _ _)).2
    rw [← hge, hgg]
    show ∃ v, jsGet (rest.foldl mergeTwo u0) unitNameKey = some v ∧ v.truthy = true
    exact foldl_mergeTwo_truthy rest u0 v0 hv0 ht0

theorem mergeUnitsByName_drops_keyless (xs : List PropertyUnit) :
    ∀ r ∈ xs, jsGet r unitNameKey = none → r ∉ mergeUnitsByName xs := by
  intro r _ hnone hmem
  obtain ⟨v, hv, _⟩ := mergeUnitsByName_keyed xs r hmem
  rw [hnone] at hv
  exact Option.noConfusion hv

theorem foldl_mergeTwo_wf :
    ∀ (rest : List PropertyUnit) (acc : PropertyUnit),
      WfRecord acc → WfRecord (rest.foldl mergeTwo acc) := by
  intro rest
  induction rest with
  | nil => intro acc h; exact h
  | cons u t ih => intro acc h; exact ih _ (h.preserve_mergeTwo u)

theorem filterMap_congr_some {α β : Type} (l : List α) (f : α → Option β)
    (g : α → β) (h : ∀ a ∈ l, f a = some (g a)) : l.filterMap f = l.map g := by
  induction l with
  | nil => rfl
  | cons a t ih =>
    rw [List.filterMap_cons, h a (List.mem_cons_self _ _), List.map_cons,
      ih (fun x hx => h x (List.mem_cons_of_mem _ hx))]

theorem mergeGroup_key (xs : List PropertyUnit)
    (hwf : ∀ r ∈ xs, WfRecord r) :
    ∀ g ∈ groupByName xs, keyOfRecord (mergeGroup g.2) = some g.1 := by
  intro g hg
  obtain ⟨hne, hall⟩ := groupByName_inv xs g hg
  rcases hgg : g.2 with _ | ⟨u0, rest⟩
  · exact absurd hgg hne
  · obtain ⟨v0, hv0, ht0, hk0⟩ := (keyOfRecord_some_iff u0 g.1).mp
      (hall u0 (hgg ▸ List.mem_cons_self _ _)).2
    have hget : jsGet (rest.foldl mergeTwo u0) unitNameKey = some v0 :=
      foldl_mergeTwo_unitName_eq rest u0 v0 g.1
        (fun u hu => hwf u (hall u (hgg ▸ List.mem_cons_of_mem _ hu)).1)
        (fun u hu => (hall u (hgg ▸ List.mem_cons_of_mem _ hu)).2)
        hv0 ht0 hk0
    show keyOfRecord (rest.foldl mergeTwo u0) = some g.1
    exact (keyOfRecord_some_iff _ _).mpr ⟨v0, hget, ht0, hk0⟩

theorem mergeUnitsByName_canonical (xs : List PropertyUnit)
    (hwf : ∀ r ∈ xs, WfRecord r) :
    truthyKeys (mergeUnitsByName xs) =
      (jsKeyOrder (groupByName xs)).map Prod.fst := by
  unfold truthyKeys mergeUnitsByName
  rw [List.filterMap_map]
  exact filterMap_congr_some _ _ _
    (fun g hg =>
      mergeGroup_key xs hwf g ((jsKeyOrder_perm _).mem_iff.mp hg))

theorem truthyKeys_eq_map_getD (xs : List PropertyUnit)
    (hkeys : ∀ r ∈ xs, (keyOfRecord r).isSome) :
    truthyKeys xs = xs.map (fun r => (keyOfRecord r).getD "") := by
  induction xs with
  | nil => rfl
  | cons x t ih =>
    have hx := hkeys x (List.mem_cons_self _ _)
    cases hk : keyOfRecord x with
    | none => rw [hk] at hx; simp at hx
    | some k =>
      rw [truthyKeys_cons_some hk, List.map_cons, hk,
        ih (fun r hr => hkeys r (List.mem_cons_of_mem _ hr))]
      rfl

theorem groupByName_keys_eq (xs : List PropertyUnit)
    (hkeys : ∀ r ∈ xs, (keyOfRecord r).isSome)
    (hnd : (truthyKeys xs).Nodup) :
    (groupByName xs).map Prod.fst = truthyKeys xs := by
  rw [groupByName_eq, groupFold_fresh xs [] hkeys hnd (by simp),
    List.nil_append, List.map_map, truthyKeys_eq_map_getD xs hkeys]
  rfl

theorem mergeUnitsByName_eq_self_core (xs : List PropertyUnit)
    (hkeys : ∀ r ∈ xs, (keyOfRecord r).isSome)
    (hnd : (truthyKeys xs).Nodup)
    (hord : jsKeyOrder (groupByName xs) = groupByName xs) :
    mergeUnitsByName xs = xs := by
  unfold mergeUnitsByName
  rw [hord, groupByName_eq, groupFold_fresh xs [] hkeys hnd (by simp)]
  rw [List.nil_append, List.map_map]
  have : ∀ r : PropertyUnit,
      ((fun g : String × List PropertyUnit => mergeGroup g.2) ∘
        (fun r : PropertyUnit => ((keyOfRecord r).getD "", [r]))) r = r :=
    fun r => rfl
  rw [List.map_congr_left (fun r _ => this r)]
  simp

theorem mergeUnitsByName_noop (xs : List PropertyUnit)
    (hkeys : ∀ r ∈ xs, (keyOfRecord r).isSome)
    (hnd : (truthyKeys xs).Nodup)
    (hidx : ∀ k ∈ truthyKeys xs, isArrayIndex k = false) :
    mergeUnitsByName xs = xs := by
  apply mergeUnitsByName_eq_self_core xs hkeys hnd
  apply jsKeyOrder_eq_self_of_none
  intro g hg
  have hmem : g.1 ∈ truthyKeys xs := by
    have h0 := (keys_groupFold_mem xs [] g.1).mp
      (List.mem_map_of_mem Prod.fst hg)
    simpa using h0
  exact hidx g.1 hmem

theorem mergeUnitsByName_perm (xs : List PropertyUnit)
    (hkeys : ∀ r ∈ xs, (keyOfRecord r).isSome)
    (hnd : (truthyKeys xs).Nodup) :
    List.Perm (mergeUnitsByName xs) xs := by
  unfold mergeUnitsByName
  have hfold : groupByName xs =
      xs.map (fun r => ((keyOfRecord r).getD "", [r])) := by
    rw [groupByName_eq, groupFold_fresh xs [] hkeys hnd (by simp),
      List.nil_append]
  rw [hfold]
  have hstep := ((jsKeyOrder_perm
    (xs.map (fun r => ((keyOfRecord r).getD "", [r])))).map
    (fun g : String × List PropertyUnit => mergeGroup g.2))
  apply hstep.trans
  rw [List.map_map]
  have : ∀ r : PropertyUnit,
      ((fun g : String × List PropertyUnit => mergeGroup g.2) ∘
        (fun r : PropertyUnit => ((keyOfRecord r).getD "", [r]))) r = r :=
    fun r => rfl
  rw [List.map_congr_left (fun r _ => this r)]
  simp

theorem mergeUnitsByName_idem (xs : List PropertyUnit)
    (hwf : ∀ r ∈ xs, WfRecord r) :
    mergeUnitsByName (mergeUnitsByName xs) = mergeUnitsByName xs := by
  have hkeys : ∀ m ∈ mergeUnitsByName xs, (keyOfRecord m).isSome := by
    intro m hm
    obtain ⟨v, hv, ht⟩ := mergeUnitsByName_keyed xs m hm
    rw [(keyOfRecord_some_iff m v.toKey).mpr ⟨v, hv, ht, rfl⟩]
    rfl
  have hcanon := mergeUnitsByName_canonical xs hwf
  have hnd : (truthyKeys (mergeUnitsByName xs)).Nodup := by
    rw [hcanon]
    rw [((jsKeyOrder_perm (groupByName xs)).map Prod.fst).nodup_iff]
    rw [groupByName_eq]
    exact keys_groupFold_nodup xs [] (by simp)
  apply mergeUnitsByName_eq_self_core _ hkeys hnd
  apply jsKeyOrder_eq_self_of_keys (groupByName xs)
  rw [groupByName_keys_eq _ hkeys hnd, hcanon]

/-! ## Header-filter lemmas (text path) -/

theorem validHeaderIndexes_cons (h : String) (t : List String) :
    validHeaderIndexes (h :: t) =
      (if isValidHeader h then [0] else []) ++
        (validHeaderIndexes t).map (· + 1) := by
  unfold validHeaderIndexes
  rw [List.enum_cons', List.filterMap_cons, List.filterMap_map,
    List.map_filterMap]
  have hfun : ∀ p : Nat × String,
      ((fun p : Nat × String =>
          if isValidHeader p.2 then some p.1 else none) ∘ Prod.map (· + 1) id) p =
        (fun p : Nat × String =>
          Option.map (· + 1) (if isValidHeader p.2 then some p.1 else none)) p := by
    intro p
    obtain ⟨i, a⟩ := p
    by_cases ha : isValidHeader a <;> simp [ha, Prod.map]
  rw [List.filterMap_congr (fun p _ => hfun p)]
  by_cases hv : isValidHeader h <;> simp [hv]

theorem validIdx_spec (hs : List String) :
    (validHeaderIndexes hs).map (fun i => hs.getD i "") =
      hs.filter isValidHeader ∧
    ∀ i ∈ validHeaderIndexes hs, i < hs.length := by
  induction hs with
  | nil => constructor <;> simp [validHeaderIndexes]
  | cons h t ih =>
    rw [validHeaderIndexes_cons]
    constructor
    · rw [List.map_append, List.map_map]
      have htail : ((validHeaderIndexes t).map
          ((fun i => (h :: t).getD i "") ∘ (· + 1))) =
          (validHeaderIndexes t).map (fun i => t.getD i "") := by
        apply List.map_congr_left
        intro i _
        rfl
      rw [htail, ih.1]
      by_cases hv : isValidHeader h <;> simp [hv, List.filter_cons]
    · intro i hi
      rcases List.mem_append.mp hi with hi | hi
      · by_cases hv : isValidHeader h
        · rw [if_pos hv] at hi
          simp only [List.mem_singleton] at hi
          subst hi
          simp
        · rw [if_neg hv] at hi
          simp at hi
      · obtain ⟨j, hj, hje⟩ := List.mem_map.mp hi
        have := ih.2 j hj
        simp only [List.length_cons]
        omega

/-! ## Field-detection lemmas (text path) -/

theorem detectFieldCSV_eq (data : List PropertyUnit) (header : String) :
    detectFieldCSV data header =
      match firstNonEmptyValue data header with
      | none => ⟨"string", header, none⟩
      | some v =>
        if jsNumberOfValue v ≠ JsNum.nan then
          ⟨"number", header, some (Value.vNum (jsNumberOfValue v))⟩
        else ⟨"string", header, some v⟩ := by
  induction data with
  | nil => rfl
  | cons item rest ih =>
    unfold detectFieldCSV firstNonEmptyValue
    unfold firstNonEmptyValue at ih
    rw [List.findSome?_cons]
    cases hget : jsGet item header with
    | none => simpa [hget] using ih
    | some v =>
      by_cases hv : v = Value.vStr ""
      · simpa [hget, hv] using ih
      · simp [hget, hv]

theorem detectFieldCSV_type_number_iff (data : List PropertyUnit)
    (header : String) :
    (detectFieldCSV data header).type = "number" ↔
      ∃ v, firstNonEmptyValue data header = some v ∧
        jsNumberOfValue v ≠ JsNum.nan := by
  rw [detectFieldCSV_eq]
  cases hfn : firstNonEmptyValue data header with
  | none => simp
  | some v =>
    by_cases hn : jsNumberOfValue v ≠ JsNum.nan <;> simp [hn]

/-! ## Field-detection lemmas (spreadsheet path) -/

theorem detectFieldExcel_eq (data : List PropertyUnit) (header : String) :
    detectFieldExcel data header =
      match firstNonEmptyValue data header with
      | none => ⟨"string", excelLabel header, none⟩
      | some (Value.vNum n) => ⟨"number", excelLabel header, some (Value.vNum n)⟩
      | some (Value.vStr s) =>
        if jsStringToNumber s ≠ JsNum.nan ∧ jsTrim s ≠ "" then
          ⟨"number", excelLabel header, some (Value.vNum (jsStringToNumber s))⟩
        else ⟨"string", excelLabel header, some (Value.vStr s)⟩ := by
  induction data with
  | nil => rfl
  | cons item rest ih =>
    unfold detectFieldExcel firstNonEmptyValue
    unfold firstNonEmptyValue at ih
    rw [List.findSome?_cons]
    cases hget : jsGet item header with
    | none => simpa [hget] using ih
    | some v =>
      by_cases hv : v = Value.vStr ""
      · simpa [hget, hv] using ih
      · cases v with
        | vNum n => simp [hget, hv]
        | vStr s => simp [hget, hv]

theorem detectFieldExcel_type_number_iff (data : List PropertyUnit)
    (header : String) :
    (detectFieldExcel data header).type = "number" ↔
      ∃ v, firstNonEmptyValue data header = some v ∧
        excelNumericValue v := by
  rw [detectFieldExcel_eq]
  cases hfn : firstNonEmptyValue data header with
  | none => simp [excelNumericValue]
  | some v =>
    cases v with
    | vNum n => simp [excelNumericValue]
    | vStr s =>
      by_cases hn : jsStringToNumber s ≠ JsNum.nan ∧ jsTrim s ≠ "" <;>
        simp [hn, excelNumericValue]

/-! ## All-string data (text path) -/

theorem allStr_jsSet {m : PropertyUnit} (hm : AllStr m) (k : String)
    (s : String) : AllStr (jsSet m k (Value.vStr s)) := by
  intro p hp
  rcases mem_jsSet m k (Value.vStr s) p hp with h | h
  · exact hm p h
  · exact ⟨s, h⟩

theorem buildRow_allStr (headers : List String) (validIdx : List Nat)
    (values : List String) : AllStr (buildRow headers validIdx values) := by
  unfold buildRow
  have : ∀ (l : List (String × Nat)) (item : PropertyUnit), AllStr item →
      AllStr (l.foldl
        (fun item p =>
          let value := extractValue values p.2
          if value ≠ "" then jsSet item p.1 (Value.vStr value) else item)
        item) := by
    intro l
    induction l with
    | nil => intro item h; exact h
    | cons p t ih =>
      intro item h
      rw [List.foldl_cons]
      apply ih
      by_cases hval : extractValue values p.2 ≠ ""
      · simpa [hval] using allStr_jsSet h p.1 (extractValue values p.2)
      · simpa [hval] using h
  exact this _ [] (by intro p hp; simp at hp)

theorem parseRows_allStr (headers : List String) (validIdx : List Nat)
    (d : Char) (rows : List String) :
    ∀ r ∈ parseRows headers validIdx d rows, AllStr r := by
  unfold parseRows
  have : ∀ (rows : List String) (acc : List PropertyUnit),
      (∀ r ∈ acc, AllStr r) →
      ∀ r ∈ rows.foldl
        (fun acc r =>
          let row := jsTrim r
          if row = "" then acc
          else
            let item := buildRow headers validIdx (jsSplit row d)
            if item.isEmpty then acc else acc ++ [item])
        acc, AllStr r := by
    intro rows
    induction rows with
    | nil => intro acc h; exact h
    | cons x t ih =>
      intro acc h
      rw [List.foldl_cons]
      apply ih
      intro r hr
      by_cases hrow : jsTrim x = ""
      · rw [if_pos hrow] at hr
        exact h r hr
      · rw [if_neg hrow] at hr
        by_cases hemp : (buildRow headers validIdx (jsSplit (jsTrim x) d)).isEmpty
        · rw [if_pos hemp] at hr
          exact h r hr
        · rw [if_neg hemp] at hr
          rcases List.mem_append.mp hr with hr | hr
          · exact h r hr
          · simp only [List.mem_singleton] at hr
            subst hr
            exact buildRow_allStr headers validIdx _
  exact this rows [] (by intro r hr; simp at hr)

theorem parseCSV_data_allStr (s : String) :
    ∀ r ∈ (parseCSV s).data, AllStr r := by
  unfold parseCSV
  cases hsplit : splitLines (jsTrim s) with
  | nil => intro r hr; simp at hr
  | cons firstRow restRows =>
    exact parseRows_allStr _ _ _ restRows

theorem jsGet_mem {β : Type} :
    ∀ (m : List (String × β)) (k : String) (v : β),
      jsGet m k = some v → (k, v) ∈ m := by
  intro m
  induction m with
  | nil => intro k v h; simp [jsGet] at h
  | cons p t ih =>
    intro k v h
    obtain ⟨pk, pv⟩ := p
    by_cases hk : pk = k
    · subst hk
      simp only [jsGet, if_pos rfl] at h
      rw [← Option.some_inj.mp h]
      exact List.mem_cons_self _ _
    · simp only [jsGet, if_neg hk] at h
      exact List.mem_cons_of_mem _ (ih k v h)

theorem mergeField_noNum_eq (acc : PropertyUnit) (k : String) (cur : Value)
    (hacc : AllStr acc) (s : String) (hcur : cur = Value.vStr s) :
    mergeFieldNoNum acc k cur = mergeField acc k cur ∧
      AllStr (mergeField acc k cur) := by
  unfold mergeField mergeFieldNoNum
  by_cases hc : cur = Value.vStr ""
  · simp only [if_pos hc]
    exact ⟨trivial, hacc⟩
  · simp only [if_neg hc]
    cases hget : jsGet acc k with
    | none =>
      subst hcur
      exact ⟨rfl, allStr_jsSet hacc k s⟩
    | some accV =>
      by_cases he : accV = Value.vStr ""
      · simp only [if_pos he]
        subst hcur
        exact ⟨trivial, allStr_jsSet hacc k s⟩
      · simp only [if_neg he]
        have ha' : ∃ a, accV = Value.vStr a :=
          hacc (k, accV) (jsGet_mem acc k accV hget)
        obtain ⟨a, ha⟩ := ha'
        subst ha
        subst hcur
        constructor
        · rfl
        · by_cases hsa : a ≠ s
          · simp only [if_pos hsa]
            exact allStr_jsSet hacc k _
          · simp only [if_neg hsa]
            exact hacc

theorem mergeTwo_noNum_eq :
    ∀ (u acc : PropertyUnit), AllStr acc → AllStr u →
      u.foldl (fun a p => mergeFieldNoNum a p.1 p.2) acc = mergeTwo acc u ∧
        AllStr (mergeTwo acc u) := by
  intro u
  induction u with
  | nil => intro acc h _; exact ⟨rfl, h⟩
  | cons p t ih =>
    intro acc hacc hu
    obtain ⟨s, hs⟩ := hu p (List.mem_cons_self _ _)
    obtain ⟨heq, hall⟩ := mergeField_noNum_eq acc p.1 p.2 hacc s hs
    have ht : AllStr t := fun q hq => hu q (List.mem_cons_of_mem _ hq)
    obtain ⟨ih1, ih2⟩ := ih (mergeField acc p.1 p.2) hall ht
    constructor
    · show (t.foldl (fun a p => mergeFieldNoNum a p.1 p.2)
          (mergeFieldNoNum acc p.1 p.2)) = mergeTwo (mergeField acc p.1 p.2) t
      rw [heq]
      exact ih1
    · exact ih2

theorem foldl_mergeTwo_noNum :
    ∀ (rest : List PropertyUnit) (acc : PropertyUnit), AllStr acc →
      (∀ u ∈ rest, AllStr u) →
      rest.foldl
          (fun acc r => r.foldl (fun a p => mergeFieldNoNum a p.1 p.2) acc)
          acc =
        rest.foldl mergeTwo acc ∧ AllStr (rest.foldl mergeTwo acc) := by
  intro rest
  induction rest with
  | nil => intro acc h _; exact ⟨rfl, h⟩
  | cons u t ih =>
    intro acc hacc hrest
    obtain ⟨heq, hall⟩ := mergeTwo_noNum_eq u acc hacc
      (hrest u (List.mem_cons_self _ _))
    obtain ⟨ih1, ih2⟩ := ih (mergeTwo acc u) hall
      (fun x hx => hrest x (List.mem_cons_of_mem _ hx))
    constructor
    · rw [List.foldl_cons, List.foldl_cons, heq]
      exact ih1
    · exact ih2

theorem mergeUnitsByName_noNum (xs : List PropertyUnit)
    (h : ∀ r ∈ xs, AllStr r) :
    mergeUnitsByName xs = mergeUnitsByNameNoNum xs := by
  unfold mergeUnitsByName mergeUnitsByNameNoNum
  apply List.map_congr_left
  intro g hg
  obtain ⟨hne, hall⟩ :=
    groupByName_inv xs g ((jsKeyOrder_perm _).mem_iff.mp hg)
  rcases hgg : g.2 with _ | ⟨u0, rest⟩
  · exact absurd hgg hne
  · have hu0 : AllStr u0 :=
      h u0 (hall u0 (hgg ▸ List.mem_cons_self _ _)).1
    have hrest : ∀ u ∈ rest, AllStr u := fun u hu =>
      h u (hall u (hgg ▸ List.mem_cons_of_mem _ hu)).1
    show rest.foldl mergeTwo u0 =
      rest.foldl
        (fun acc r => r.foldl (fun a p => mergeFieldNoNum a p.1 p.2) acc) u0
    exact (foldl_mergeTwo_noNum rest u0 hu0 hrest).1.symm

/-! ## Two-record merges, delimiter sniffing, sparse rows -/

theorem groupByName_pair (r1 r2 : PropertyUnit) (u1 u2 : Value)
    (h1 : jsGet r1 unitNameKey = some u1) (ht1 : u1.truthy = true)
    (h2 : jsGet r2 unitNameKey = some u2) (ht2 : u2.truthy = true)
    (hk : u2.toKey = u1.toKey) :
    mergeUnitsByName [r1, r2] = [mergeTwo r1 r2] := by
  unfold mergeUnitsByName
  have hg : groupByName [r1, r2] = [(u1.toKey, [r1, r2])] := by
    rw [groupByName_eq]
    show groupStep (groupStep [] r1) r2 = _
    have e1 : groupStep [] r1 = [(u1.toKey, [r1])] := by
      unfold groupStep
      rw [h1]
      dsimp only
      rw [if_pos ht1]
      unfold insertGroup
      simp
    rw [e1]
    unfold groupStep
    rw [h2]
    dsimp only
    rw [if_pos ht2, hk]
    unfold insertGroup
    rw [if_pos (by simp :
      ([(u1.toKey, [r1])].any (fun g => g.1 = u1.toKey)) = true)]
    simp
  rw [hg, jsKeyOrder_singleton]
  rfl

theorem detectDelimiter_spec (s : String) :
    detectDelimiter s ∈ possibleDelimiters ∧
    (∀ d ∈ possibleDelimiters,
      (jsSplit s d).length ≤ (jsSplit s (detectDelimiter s)).length) ∧
    ∃ pre post, possibleDelimiters = pre ++ detectDelimiter s :: post ∧
      ∀ d ∈ pre, (jsSplit s d).length < (jsSplit s (detectDelimiter s)).length := by
  unfold detectDelimiter possibleDelimiters
  simp only [List.foldl_cons, List.foldl_nil]
  split_ifs
  all_goals refine ⟨by simp, ?_, ?_⟩
  all_goals try (intro d hd; fin_cases hd <;> simp only [] <;> omega)
  all_goals first
    | exact ⟨[], [';', '\t', '|'], rfl, fun d hd => by simp at hd⟩
    | (refine ⟨[','], ['\t', '|'], rfl, fun d hd => ?_⟩;
       fin_cases hd <;> simp only [] <;> omega)
    | (refine ⟨[',', ';'], ['|'], rfl, fun d hd => ?_⟩;
       fin_cases hd <;> simp only [] <;> omega)
    | (refine ⟨[',', ';', '\t'], [], rfl, fun d hd => ?_⟩;
       fin_cases hd <;> simp only [] <;> omega)

theorem excelProcessRow_iff (vh : List String) (vi : List Nat)
    (row : List (Option Value)) :
    (excelProcessRow vh vi row).isSome ↔
      2 * (excelRowStep vh vi row).2 ≤ vh.length ∧
        (excelRowStep vh vi row).1 ≠ [] := by
  unfold excelProcessRow
  dsimp only
  split_ifs with hcount hemp
  · simp only [Option.isSome_none, Bool.false_eq_true, false_iff]
    intro h
    have := h.1
    omega
  · simp only [Option.isSome_none, Bool.false_eq_true, false_iff]
    intro h
    exact h.2 (List.isEmpty_iff.mp hemp)
  · simp only [Option.isSome_some, true_iff]
    exact ⟨by omega, fun h => hemp (List.isEmpty_iff.mpr h)⟩

/-! ## Claims -/

/-- Claim C1: when two records sharing the same truthy `Unit Name` key both
hold numeric values for a field, the merged record's value for that field
is the sum exactly when the field is in the fixed summable allow-list
(e.g. `Unit Price` 100 + 50 = 150), and the accumulator's first value
otherwise (e.g. `Floor` stays 3). -/
theorem claim1_numeric_merge (r1 r2 : PropertyUnit) (f : String)
    (a b : JsNum) (u1 u2 : Value) (hw2 : WfRecord r2)
    (h1 : jsGet r1 unitNameKey = some u1) (ht1 : u1.truthy = true)
    (h2 : jsGet r2 unitNameKey = some u2) (ht2 : u2.truthy = true)
    (hk : u2.toKey = u1.toKey)
    (hf1 : jsGet r1 f = some (Value.vNum a))
    (hf2 : jsGet r2 f = some (Value.vNum b)) :
    mergeUnitsByName [r1, r2] = [mergeTwo r1 r2] ∧
    jsGet (mergeTwo r1 r2) f =
      some (Value.vNum (if f ∈ fieldsToSum then a.add b else a)) := by
  refine ⟨groupByName_pair r1 r2 u1 u2 h1 ht1 h2 ht2 hk, ?_⟩
  rw [jsGet_mergeTwo r2 r1 f (Value.vNum b) hw2 hf2, hf1]
  unfold mergedSlot
  rw [if_neg (fun hc => Value.noConfusion hc)]
  dsimp only
  rw [if_neg (fun hc => Value.noConfusion hc)]
  by_cases hmem : f ∈ fieldsToSum <;> simp [hmem]

/-- Witness for C1 at the spec's two examples: `Unit Price` 100 and 50
merge to 150 (summable), `Floor` 3 and 5 merge to 3 (first-wins). -/
theorem claim1_numeric_merge_witness :
    jsGet (mergeTwo
        [("Unit Name", Value.vStr "U1"), ("Unit Price", Value.vNum (JsNum.fin 100))]
        [("Unit Name", Value.vStr "U1"), ("Unit Price", Value.vNum (JsNum.fin 50))])
      "Unit Price" = some (Value.vNum (JsNum.fin 150)) ∧
    jsGet (mergeTwo
        [("Unit Name", Value.vStr "U1"), ("Floor", Value.vNum (JsNum.fin 3))]
        [("Unit Name", Value.vStr "U1"), ("Floor", Value.vNum (JsNum.fin 5))])
      "Floor" = some (Value.vNum (JsNum.fin 3)) := by
  constructor
  · have h := (claim1_numeric_merge
      [("Unit Name", Value.vStr "U1"), ("Unit Price", Value.vNum (JsNum.fin 100))]
      [("Unit Name", Value.vStr "U1"), ("Unit Price", Value.vNum (JsNum.fin 50))]
      "Unit Price" (JsNum.fin 100) (JsNum.fin 50)
      (Value.vStr "U1") (Value.vStr "U1")
      (by decide) (by decide) (by decide) (by decide) (by decide) (by decide)
      (by decide) (by decide)).2
    rw [h]
    with_unfolding_all decide
  · have h := (claim1_numeric_merge
      [("Unit Name", Value.vStr "U1"), ("Floor", Value.vNum (JsNum.fin 3))]
      [("Unit Name", Value.vStr "U1"), ("Floor", Value.vNum (JsNum.fin 5))]
      "Floor" (JsNum.fin 3) (JsNum.fin 5)
      (Value.vStr "U1") (Value.vStr "U1")
      (by decide) (by decide) (by decide) (by decide) (by decide) (by decide)
      (by decide) (by decide)).2
    rw [h]
    decide

/-- Claim C2: invalid headers (empty after cleanup, or starting with the
auto-generated `Column` placeholder) are excluded from the emitted field
list, and each surviving header keeps its original column index, so
values are pulled from the right columns; header row
`["Unit Name", "", "Column2", "Price"]` keeps `["Unit Name", "Price"]`
at original indices `[0, 3]`. -/
theorem claim2_header_filter :
    (∀ hs : List String,
      (validHeaderIndexes hs).map (fun i => hs.getD i "") =
        hs.filter isValidHeader ∧
      ∀ i ∈ validHeaderIndexes hs, i < hs.length) ∧
    validHeaderIndexes ["Unit Name", "", "Column2", "Price"] = [0, 3] ∧
    ["Unit Name", "", "Column2", "Price"].filter isValidHeader
      = ["Unit Name", "Price"] ∧
    (parseCSV "Unit Name,,Column2,Price\nA,B,C,D").fields
      = ["Unit Name", "Price"] ∧
    (parseCSV "Unit Name,,Column2,Price\nA,B,C,D").data
      = [[("Unit Name", Value.vStr "A"), ("Price", Value.vStr "D")]] :=
  ⟨validIdx_spec, by decide, by decide, by decide, by decide⟩

/-- Witness for C2 at the header row of the spec's example. -/
theorem claim2_header_filter_witness :
    (validHeaderIndexes ["Unit Name", "", "Column2", "Price"]).map
        (fun i => ["Unit Name", "", "Column2", "Price"].getD i "")
      = ["Unit Name", "Price"] ∧
    (3 : Nat) < (["Unit Name", "", "Column2", "Price"] : List String).length := by
  constructor
  · rw [(claim2_header_filter.1 ["Unit Name", "", "Column2", "Price"]).1]
    decide
  · exact (claim2_header_filter.1 ["Unit Name", "", "Column2", "Price"]).2 3
      (by decide)

/-- Claim C3: a spreadsheet data row is kept exactly when at most 50% of its
mapped fields are empty (strictly-greater-than discards) and at least one
field is populated; with 6 mapped fields, 4 empty is dropped and 3 empty
is kept. -/
theorem claim3_sparse_rows :
    (∀ (vh : List String) (vi : List Nat) (row : List (Option Value)),
      (excelProcessRow vh vi row).isSome ↔
        2 * (excelRowStep vh vi row).2 ≤ vh.length ∧
          (excelRowStep vh vi row).1 ≠ []) ∧
    excelProcessRow ["A", "B", "C", "D", "E", "F"] [0, 1, 2, 3, 4, 5]
      [some (Value.vStr "x"), some (Value.vStr "y"), none, none, none, none]
      = none ∧
    excelProcessRow ["A", "B", "C", "D", "E", "F"] [0, 1, 2, 3, 4, 5]
      [some (Value.vStr "x"), some (Value.vStr "y"), some (Value.vStr "z"),
        none, none, none]
      = some [("A", Value.vStr "x"), ("B", Value.vStr "y"),
        ("C", Value.vStr "z")] :=
  ⟨excelProcessRow_iff, by decide, by decide⟩

/-- Witness for C3: the boundary instance with all fields populated. -/
theorem claim3_sparse_rows_witness :
    (excelProcessRow ["A", "B"] [0, 1]
      [some (Value.vStr "x"), some (Value.vStr "y")]).isSome = true := by
  rw [claim3_sparse_rows.1 ["A", "B"] [0, 1]
    [some (Value.vStr "x"), some (Value.vStr "y")]]
  decide

/-- Counterexample to claim C4: on the header line `"a,b;c,d,e"`, splitting
by comma yields 4 fields (`a`, `b;c`, `d`, `e`), not the 5 the claim
states. -/
theorem claim4_counterexample :
    (jsSplit "a,b;c,d,e" ',').length = 4 ∧
    ¬ (jsSplit "a,b;c,d,e" ',').length = 5 :=
  ⟨by decide, by decide⟩

/-- Claim C4, amended: the delimiter is the candidate (among comma,
semicolon, tab, pipe, in that order) producing the maximum field count on
the first line, ties broken by candidate order; for `"a,b;c,d,e"` comma
wins with 4 fields against 2 for semicolon. -/
theorem claim4_delimiter :
    (∀ s : String,
      detectDelimiter s ∈ possibleDelimiters ∧
      (∀ d ∈ possibleDelimiters,
        (jsSplit s d).length ≤ (jsSplit s (detectDelimiter s)).length) ∧
      ∃ pre post, possibleDelimiters = pre ++ detectDelimiter s :: post ∧
        ∀ d ∈ pre,
          (jsSplit s d).length < (jsSplit s (detectDelimiter s)).length) ∧
    detectDelimiter "a,b;c,d,e" = ',' ∧
    (jsSplit "a,b;c,d,e" ',').length = 4 ∧
    (jsSplit "a,b;c,d,e" ';').length = 2 :=
  ⟨detectDelimiter_spec, by decide, by decide, by decide⟩

/-- Witness for C4 at the spec's header line. -/
theorem claim4_delimiter_witness :
    (jsSplit "a,b;c,d,e" ';').length ≤
      (jsSplit "a,b;c,d,e" (detectDelimiter "a,b;c,d,e")).length :=
  (claim4_delimiter.1 "a,b;c,d,e").2.1 ';' (by decide)

/-- Counterexample to claim C5: the numeric value `5` and the string `"5"`
are two distinct non-empty (truthy) `Unit Name` values, yet the merger
coerces object keys to strings and produces a single merged record, so
the output does not contain one record per distinct value. -/
theorem claim5_counterexample :
    (mergeUnitsByName
      [[("Unit Name", Value.vNum (JsNum.fin 5)), ("Floor", Value.vStr "x")],
       [("Unit Name", Value.vStr "5"), ("Floor", Value.vStr "y")]]).length
      = 1 ∧
    distinctUnitNameValues
      [[("Unit Name", Value.vNum (JsNum.fin 5)), ("Floor", Value.vStr "x")],
       [("Unit Name", Value.vStr "5"), ("Floor", Value.vStr "y")]]
      = [Value.vNum (JsNum.fin 5), Value.vStr "5"] ∧
    (Value.vNum (JsNum.fin 5)).truthy = true ∧
    (Value.vStr "5").truthy = true :=
  ⟨by decide, by decide, by decide, by decide⟩

/-- Claim C5, amended: the merger emits exactly one record per distinct
*string coercion* of the truthy `Unit Name` values present in the input;
every output record carries a truthy `Unit Name`, and every record
lacking the field is absent from the output (the merger is a total
function, so it raises no error). -/
theorem claim5_amended (xs : List PropertyUnit) :
    (mergeUnitsByName xs).length = (truthyKeys xs).dedup.length ∧
    (∀ m ∈ mergeUnitsByName xs,
      ∃ v, jsGet m unitNameKey = some v ∧ v.truthy = true) ∧
    (∀ r ∈ xs, jsGet r unitNameKey = none → r ∉ mergeUnitsByName xs) :=
  ⟨length_mergeUnitsByName xs, mergeUnitsByName_keyed xs,
    mergeUnitsByName_drops_keyless xs⟩

/-- Witness for C5 (amended): one keyed record, one keyless record — the
keyless one is absent and the output has one record. -/
theorem claim5_amended_witness :
    (mergeUnitsByName
      [[("Unit Name", Value.vStr "U1")], [("Floor", Value.vStr "3")]]).length
      = 1 ∧
    ([("Floor", Value.vStr "3")] : PropertyUnit) ∉
      mergeUnitsByName
        [[("Unit Name", Value.vStr "U1")], [("Floor", Value.vStr "3")]] := by
  have h := claim5_amended
    [[("Unit Name", Value.vStr "U1")], [("Floor", Value.vStr "3")]]
  refine ⟨?_, h.2.2 [("Floor", Value.vStr "3")] (by decide) (by decide)⟩
  rw [h.1]
  decide

/-- Claim C6: when two records sharing the same truthy `Unit Name` key both
hold populated string values for a field, the merged value is the
concatenation `"<existing>, <incoming>"` in fold order when they differ,
and the unchanged accumulator value when they are identical. -/
theorem claim6_string_merge (r1 r2 : PropertyUnit) (f : String)
    (a b : String) (u1 u2 : Value) (hw2 : WfRecord r2)
    (h1 : jsGet r1 unitNameKey = some u1) (ht1 : u1.truthy = true)
    (h2 : jsGet r2 unitNameKey = some u2) (ht2 : u2.truthy = true)
    (hk : u2.toKey = u1.toKey)
    (ha : a ≠ "") (hb : b ≠ "")
    (hf1 : jsGet r1 f = some (Value.vStr a))
    (hf2 : jsGet r2 f = some (Value.vStr b)) :
    mergeUnitsByName [r1, r2] = [mergeTwo r1 r2] ∧
    jsGet (mergeTwo r1 r2) f =
      some (Value.vStr (if a ≠ b then a ++ ", " ++ b else a)) := by
  refine ⟨groupByName_pair r1 r2 u1 u2 h1 ht1 h2 ht2 hk, ?_⟩
  rw [jsGet_mergeTwo r2 r1 f (Value.vStr b) hw2 hf2, hf1]
  unfold mergedSlot
  rw [if_neg (fun hc => hb (Value.vStr.inj hc))]
  dsimp only
  rw [if_neg (fun hc => ha (Value.vStr.inj hc))]
  by_cases hab : a ≠ b <;> simp [hab]

/-- Witness for C6 at the spec's example: `Phase` `"A"` + `"B"` merges to
`"A, B"`, while identical values stay unchanged. -/
theorem claim6_string_merge_witness :
    jsGet (mergeTwo
        [("Unit Name", Value.vStr "U1"), ("Phase", Value.vStr "A")]
        [("Unit Name", Value.vStr "U1"), ("Phase", Value.vStr "B")])
      "Phase" = some (Value.vStr "A, B") ∧
    jsGet (mergeTwo
        [("Unit Name", Value.vStr "U1"), ("Phase", Value.vStr "A")]
        [("Unit Name", Value.vStr "U1"), ("Phase", Value.vStr "A")])
      "Phase" = some (Value.vStr "A") := by
  constructor
  · have h := (claim6_string_merge
      [("Unit Name", Value.vStr "U1"), ("Phase", Value.vStr "A")]
      [("Unit Name", Value.vStr "U1"), ("Phase", Value.vStr "B")]
      "Phase" "A" "B" (Value.vStr "U1") (Value.vStr "U1")
      (by decide) (by decide) (by decide) (by decide) (by decide) (by decide)
      (by decide) (by decide) (by decide) (by decide)).2
    rw [h]
    decide
  · have h := (claim6_string_merge
      [("Unit Name", Value.vStr "U1"), ("Phase", Value.vStr "A")]
      [("Unit Name", Value.vStr "U1"), ("Phase", Value.vStr "A")]
      "Phase" "A" "A" (Value.vStr "U1") (Value.vStr "U1")
      (by decide) (by decide) (by decide) (by decide) (by decide) (by decide)
      (by decide) (by decide) (by decide) (by decide)).2
    rw [h]
    decide

/-- Counterexample to claim C7: the singleton-per-key set with unit names
`"U1"` then `"5"` satisfies the claim's premise (each distinct `Unit Name`
value occurs exactly once, all truthy), yet the merger returns the records
reordered rather than unchanged: `Object.keys` enumerates the array-index
key `"5"` before the insertion-ordered key `"U1"`. -/
theorem claim7_counterexample :
    mergeUnitsByName
        [[("Unit Name", Value.vStr "U1")], [("Unit Name", Value.vStr "5")]]
      = [[("Unit Name", Value.vStr "5")], [("Unit Name", Value.vStr "U1")]] ∧
    mergeUnitsByName
        [[("Unit Name", Value.vStr "U1")], [("Unit Name", Value.vStr "5")]]
      ≠ [[("Unit Name", Value.vStr "U1")], [("Unit Name", Value.vStr "5")]] ∧
    (truthyKeys
      [[("Unit Name", Value.vStr "U1")],
       [("Unit Name", Value.vStr "5")]]).Nodup :=
  ⟨by decide, by decide, by decide⟩

/-- Claim C7, amended: merging an already-merged (singleton-per-key) set
returns the same records up to `Object.keys` enumeration order — exactly
the same list whenever no unit-name key is an ECMAScript array index (an
integer-like string such as `"5"`), and a permutation of it in general;
and `merge (merge xs) = merge xs` for every record list `xs` (records
being JS objects, their keys are unique). -/
theorem claim7_idempotent :
    (∀ xs : List PropertyUnit,
      (∀ r ∈ xs, ∃ v, jsGet r unitNameKey = some v ∧ v.truthy = true) →
      (truthyKeys xs).Nodup →
      (∀ k ∈ truthyKeys xs, isArrayIndex k = false) →
      mergeUnitsByName xs = xs) ∧
    (∀ xs : List PropertyUnit,
      (∀ r ∈ xs, ∃ v, jsGet r unitNameKey = some v ∧ v.truthy = true) →
      (truthyKeys xs).Nodup →
      List.Perm (mergeUnitsByName xs) xs) ∧
    (∀ xs : List PropertyUnit, (∀ r ∈ xs, WfRecord r) →
      mergeUnitsByName (mergeUnitsByName xs) = mergeUnitsByName xs) := by
  have hsome : ∀ xs : List PropertyUnit,
      (∀ r ∈ xs, ∃ v, jsGet r unitNameKey = some v ∧ v.truthy = true) →
      ∀ r ∈ xs, (keyOfRecord r).isSome := by
    intro xs hkeys r hr
    obtain ⟨v, hv, ht⟩ := hkeys r hr
    rw [(keyOfRecord_some_iff r v.toKey).mpr ⟨v, hv, ht, rfl⟩]
    rfl
  refine ⟨?_, ?_, mergeUnitsByName_idem⟩
  · intro xs hkeys hnd hidx
    exact mergeUnitsByName_noop xs (hsome xs hkeys) hnd hidx
  · intro xs hkeys hnd
    exact mergeUnitsByName_perm xs (hsome xs hkeys) hnd

/-- Witness for C7 (amended): a singleton-per-key set with non-index keys
passes through unchanged; the reordered `"U1"`/`"5"` set still comes back
as a permutation; a duplicate-key set is idempotent under a second
merge. -/
theorem claim7_idempotent_witness :
    mergeUnitsByName
        [[("Unit Name", Value.vStr "U1"), ("Floor", Value.vStr "1")],
         [("Unit Name", Value.vStr "U2"), ("Floor", Value.vStr "2")]]
      = [[("Unit Name", Value.vStr "U1"), ("Floor", Value.vStr "1")],
         [("Unit Name", Value.vStr "U2"), ("Floor", Value.vStr "2")]] ∧
    List.Perm
      (mergeUnitsByName
        [[("Unit Name", Value.vStr "U1")], [("Unit Name", Value.vStr "5")]])
      [[("Unit Name", Value.vStr "U1")], [("Unit Name", Value.vStr "5")]] ∧
    mergeUnitsByName (mergeUnitsByName
        [[("Unit Name", Value.vStr "U1"), ("Phase", Value.vStr "A")],
         [("Unit Name", Value.vStr "U1"), ("Phase", Value.vStr "B")]])
      = mergeUnitsByName
        [[("Unit Name", Value.vStr "U1"), ("Phase", Value.vStr "A")],
         [("Unit Name", Value.vStr "U1"), ("Phase", Value.vStr "B")]] := by
  refine ⟨?_, ?_, ?_⟩
  · apply claim7_idempotent.1
    · intro r hr
      fin_cases hr
      · exact ⟨Value.vStr "U1", by decide, by decide⟩
      · exact ⟨Value.vStr "U2", by decide, by decide⟩
    · decide
    · decide
  · apply claim7_idempotent.2.1
    · intro r hr
      fin_cases hr
      · exact ⟨Value.vStr "U1", by decide, by decide⟩
      · exact ⟨Value.vStr "5", by decide, by decide⟩
    · decide
  · apply claim7_idempotent.2.2
    intro r hr
    fin_cases hr <;> decide

/-- Counterexample to claim C8: a column whose first non-empty value is
`"Infinity"` is inferred `type="number"` by the code (the check is
`!isNaN(Number(value))`), although `"Infinity"` does not parse as a
*finite* number, contradicting the claim's "finite" criterion. -/
theorem claim8_counterexample :
    jsGet (parseCSV "Price\nInfinity").detectedFields "Price" =
      some ⟨"number", "Price", some (Value.vNum JsNum.posInf)⟩ ∧
    ¬ parsesAsFiniteNumber "Infinity" := by
  refine ⟨by decide, ?_⟩
  rintro ⟨q, hq⟩
  rw [show jsStringToNumber "Infinity" = JsNum.posInf from by decide] at hq
  exact JsNum.noConfusion hq

/-- Claim C8, amended: on both parser paths the field descriptor scans
records to the first non-empty value of the column. On the text path the
field is inferred numeric exactly when that value's entire trimmed string
form parses as a number other than `NaN` (infinite values also count as
numeric); a numeric example is normalized through `Number`, a non-numeric
example is kept verbatim. On the spreadsheet path an actual number is
numeric with the example kept as-is, and a string is numeric exactly when
it parses as a number other than `NaN` *and* does not trim to the empty
string. -/
theorem claim8_amended (data : List PropertyUnit) (header : String) :
    detectFieldCSV data header =
      (match firstNonEmptyValue data header with
       | none => ⟨"string", header, none⟩
       | some v =>
         if jsNumberOfValue v ≠ JsNum.nan then
           ⟨"number", header, some (Value.vNum (jsNumberOfValue v))⟩
         else ⟨"string", header, some v⟩) ∧
    ((detectFieldCSV data header).type = "number" ↔
      ∃ v, firstNonEmptyValue data header = some v ∧
        jsNumberOfValue v ≠ JsNum.nan) ∧
    detectFieldExcel data header =
      (match firstNonEmptyValue data header with
       | none => ⟨"string", excelLabel header, none⟩
       | some (Value.vNum n) =>
         ⟨"number", excelLabel header, some (Value.vNum n)⟩
       | some (Value.vStr s) =>
         if jsStringToNumber s ≠ JsNum.nan ∧ jsTrim s ≠ "" then
           ⟨"number", excelLabel header, some (Value.vNum (jsStringToNumber s))⟩
         else ⟨"string", excelLabel header, some (Value.vStr s)⟩) ∧
    ((detectFieldExcel data header).type = "number" ↔
      ∃ v, firstNonEmptyValue data header = some v ∧
        excelNumericValue v) :=
  ⟨detectFieldCSV_eq data header, detectFieldCSV_type_number_iff data header,
   detectFieldExcel_eq data header, detectFieldExcel_type_number_iff data header⟩

set_option maxRecDepth 4000 in
/-- Witness for C8 (amended) at the spec's examples: first value `"1200"`
infers a numeric field with example `1200`; first value `"North Wing"`
infers a string field with the value kept verbatim; on the spreadsheet
path an actual number `1200` infers a numeric field, while the string
`" "` (which `Number` coerces to `0` but which trims to empty) stays a
string field. -/
theorem claim8_amended_witness :
    (detectFieldCSV [[("Area", Value.vStr "1200")]] "Area").type
      = "number" ∧
    detectFieldCSV [[("Area", Value.vStr "1200")]] "Area"
      = ⟨"number", "Area", some (Value.vNum (JsNum.fin 1200))⟩ ∧
    detectFieldCSV [[("Wing", Value.vStr "North Wing")]] "Wing"
      = ⟨"string", "Wing", some (Value.vStr "North Wing")⟩ ∧
    (detectFieldExcel [[("Area", Value.vNum (JsNum.fin 1200))]] "Area").type
      = "number" ∧
    detectFieldExcel [[("Area", Value.vStr " ")]] "Area"
      = ⟨"string", "Area", some (Value.vStr " ")⟩ := by
  refine ⟨?_, ?_, ?_, ?_, ?_⟩
  · exact (claim8_amended [[("Area", Value.vStr "1200")]] "Area").2.1.mpr
      ⟨Value.vStr "1200", by decide, by with_unfolding_all decide⟩
  · rw [(claim8_amended [[("Area", Value.vStr "1200")]] "Area").1]
    with_unfolding_all decide
  · rw [(claim8_amended [[("Wing", Value.vStr "North Wing")]] "Wing").1]
    decide
  · exact (claim8_amended
        [[("Area", Value.vNum (JsNum.fin 1200))]] "Area").2.2.2.mpr
      ⟨Value.vNum (JsNum.fin 1200), by decide, trivial⟩
  · rw [(claim8_amended [[("Area", Value.vStr " ")]] "Area").2.2.1]
    with_unfolding_all decide

/-- Counterexample to claim C9: when both the spreadsheet parse and its
fallback re-parse fail, the surfaced error message wraps the *fallback*
attempt's cause and does not contain the original first-attempt cause. -/
theorem claim9_counterexample :
    parseFileModel "xlsx" 0 ""
        (Except.error "original cause") (Except.error "fallback cause") =
      Except.error
        "Failed to parse XLSX file: Fallback Excel parsing failed: fallback cause" ∧
    strContains
        "Failed to parse XLSX file: Fallback Excel parsing failed: fallback cause"
        "original cause" = false ∧
    strContains
        "Failed to parse XLSX file: Fallback Excel parsing failed: fallback cause"
        "fallback cause" = true :=
  ⟨by decide, by decide, by decide⟩

/-- Claim C9, amended: the spreadsheet path attempts exactly one fallback
re-parse; when it also fails the operation fails with the error wrapping
the fallback-attempt cause (the original cause is only logged), and when
the fallback succeeds its result is merged and returned. -/
theorem claim9_amended (fileText e1 e2 : String) (r : ParseResult) :
    parseFileModel "xlsx" 0 fileText (Except.error e1) (Except.error e2) =
      Except.error
        ("Failed to parse XLSX file: Fallback Excel parsing failed: " ++ e2) ∧
    parseFileModel "xlsx" 0 fileText (Except.error e1) (Except.ok r) =
      Except.ok ⟨mergeUnitsByName r.data, r.fields, r.detectedFields⟩ := by
  constructor
  · unfold parseFileModel
    rw [if_neg (by decide)]
    dsimp only
    rw [if_neg (by decide), if_pos (by decide)]
    dsimp only [parseExcelFallbackModel]
    have hup : ("Failed to parse " ++ jsToUpperCase "xlsx" ++ " file: " : String)
        = "Failed to parse XLSX file: " := by decide
    rw [hup, ← String.append_assoc,
      show ("Failed to parse XLSX file: " ++ "Fallback Excel parsing failed: "
        : String) = "Failed to parse XLSX file: Fallback Excel parsing failed: "
        from by decide]
  · unfold parseFileModel
    rw [if_neg (by decide)]
    dsimp only
    rw [if_neg (by decide), if_pos (by decide)]
    rfl

/-- Witness for C9 (amended) at concrete causes. -/
theorem claim9_amended_witness :
    parseFileModel "xlsx" 0 "" (Except.error "e1") (Except.error "e2") =
      Except.error
        ("Failed to parse XLSX file: Fallback Excel parsing failed: " ++ "e2") :=
  (claim9_amended "" "e1" "e2" ⟨[], [], []⟩).1

/-- Claim C10: every field value produced by the delimited-text path is a
string, so the merger's both-values-numeric sum branch is never taken on
CSV data: merging with the numeric branch replaced by first-wins yields
the identical result. -/
theorem claim10_csv_strings :
    (∀ s : String, ∀ r ∈ (parseCSV s).data, ∀ p ∈ r,
      ∃ str, p.2 = Value.vStr str) ∧
    (∀ s : String,
      mergeUnitsByName (parseCSV s).data =
        mergeUnitsByNameNoNum (parseCSV s).data) := by
  constructor
  · intro s r hr p hp
    exact parseCSV_data_allStr s r hr p hp
  · intro s
    exact mergeUnitsByName_noNum _ (parseCSV_data_allStr s)

/-- Witness for C10 on a CSV file with an allow-listed field and a
duplicated key: the parsed `Unit Price` values are strings and the merge
is unchanged when the numeric-sum branch is removed. -/
theorem claim10_csv_strings_witness :
    (∃ str, (("Unit Price", Value.vStr "100") : String × Value).2
      = Value.vStr str) ∧
    mergeUnitsByName
        (parseCSV "Unit Name,Unit Price\nU1,100\nU1,50").data =
      mergeUnitsByNameNoNum
        (parseCSV "Unit Name,Unit Price\nU1,100\nU1,50").data := by
  constructor
  · exact claim10_csv_strings.1 "Unit Name,Unit Price\nU1,100\nU1,50"
      [("Unit Name", Value.vStr "U1"), ("Unit Price", Value.vStr "100")]
      (by decide) ("Unit Price", Value.vStr "100") (by decide)
  · exact claim10_csv_strings.2 "Unit Name,Unit Price\nU1,100\nU1,50"

end CsvCore
